import Mathlib

/-!
# Verification of the Simplex file manager's archive and trash subsystems

This file gives a shallow embedding, in Lean 4, of the path handling,
archive (zip) creation/extraction, and soft-delete (trash) logic of the
Simplex file manager (`internal/fileops/archive.go`,
`internal/fileops/softdelete.go`), together with theorems settling the
specification claims about that code.

Filesystem paths are Unix-style strings (`/`-separated), and the
filesystem itself is modelled as an association list from absolute path
strings to file contents, plus a list of existing directories.  I/O
primitives (`os.Rename`, `os.WriteFile`, `os.MkdirAll`, …) are modelled
as pure state transformations that always succeed except where the Go
function has a documented failure mode relevant to the claims
(`os.Rename` of a missing source, reading a missing file, `os.ReadDir`
of a missing directory).
-/

namespace FMSpec

/-! ## Go `strings` / `path/filepath` primitives

The following definitions model the Go standard-library string and path
functions used by `archive.go` and `softdelete.go`, on Unix (`'/'` is
the path separator, as in the deployment platforms the claims concern).
-/

/-- `strings.Split(s, sep)` for a single-character separator:
splitting `"a//b"` on `'/'` yields `["a", "", "b"]`. -/
def splitSepL (sep : Char) : List Char → List (List Char)
  | [] => [[]]
  | c :: cs =>
    match splitSepL sep cs with
    | h :: t => if c = sep then [] :: h :: t else (c :: h) :: t
    | [] => [[]]

/-- String wrapper for `splitSepL`. -/
def goSplitOnChar (sep : Char) (s : String) : List String :=
  (splitSepL sep s.data).map fun l => ⟨l⟩

/-- `strings.Contains(s, sub)` on character lists. -/
def containsSubL (sub : List Char) : List Char → Bool
  | [] => sub.isEmpty
  | c :: cs => sub.isPrefixOf (c :: cs) || containsSubL sub cs

/-- `strings.Contains(s, sub)`. -/
def goContains (s sub : String) : Bool :=
  containsSubL sub.data s.data

/-- `strings.HasPrefix(s, pre)`. -/
def goHasPrefix (s pre : String) : Bool :=
  pre.data.isPrefixOf s.data

/-- `strings.HasSuffix(s, suf)`. -/
def goHasSuffix (s suf : String) : Bool :=
  suf.data.isSuffixOf s.data

/-- `strings.TrimPrefix(s, pre)`. -/
def goTrimPrefix (s pre : String) : String :=
  if pre.data.isPrefixOf s.data then ⟨s.data.drop pre.data.length⟩ else s

/-- `strings.ToLower(s)` (ASCII case folding suffices for the format
tokens the code compares against). -/
def goToLower (s : String) : String :=
  ⟨s.data.map Char.toLower⟩

/-- `filepath.IsAbs(s)` on Unix: the path starts with `'/'`. -/
def isAbs (s : String) : Bool :=
  match s.data with
  | '/' :: _ => true
  | _ => false

/-- Helper for `filepath.Ext`: scan the reversed character list until a
`'.'` (found: return the extension including the dot) or a `'/'` or the
start of the string (no extension). -/
def extRevAux (acc : List Char) : List Char → Option (List Char)
  | [] => none
  | c :: cs =>
    if c = '/' then none
    else if c = '.' then some (c :: acc)
    else extRevAux (c :: acc) cs

/-- `filepath.Ext(s)`: the suffix beginning at the final dot in the
final slash-separated element; empty if there is no dot. -/
def pathExt (s : String) : String :=
  match extRevAux [] s.data.reverse with
  | some l => ⟨l⟩
  | none => ""

/-- `filepath.Base(s)` on Unix: last element of the path after removing
trailing slashes; `"."` for the empty path, `"/"` for all-slash paths. -/
def pathBase (s : String) : String :=
  if s = "" then "."
  else
    let r := s.data.reverse.dropWhile (· = '/')
    if r = [] then "/"
    else ⟨(r.takeWhile (· ≠ '/')).reverse⟩

/-- Core of `filepath.Clean` (Lexical processing of `..`, `.` and empty
elements).  The stack is kept reversed (most recent component first).
An `..` element pops a poppable component; with nothing to pop it is
kept on relative paths and dropped on rooted ones. -/
def cleanStack (rooted : Bool) : List String → List String → List String
  | stack, [] => stack
  | stack, c :: cs =>
    if c = "" || c = "." then cleanStack rooted stack cs
    else if c = ".." then
      match stack with
      | [] => if rooted then cleanStack rooted [] cs else cleanStack rooted [".."] cs
      | t :: rest =>
        if t = ".." then cleanStack rooted (".." :: t :: rest) cs
        else cleanStack rooted rest cs
    else cleanStack rooted (c :: stack) cs

/-- Join path components with `'/'` (no leading or trailing slash). -/
def joinParts : List String → String
  | [] => ""
  | [p] => p
  | p :: ps => p ++ "/" ++ joinParts ps

/-- Reassemble the output of `cleanStack` into a path string, restoring
the leading slash of rooted paths; the empty relative path renders as
`"."`, the empty rooted path as `"/"`. -/
def renderParts (rooted : Bool) (parts : List String) : String :=
  if rooted then "/" ++ joinParts parts
  else if parts = [] then "." else joinParts parts

/-- The cleaned component list of a path. -/
def cleanParts (s : String) : List String :=
  (cleanStack (isAbs s) [] (goSplitOnChar '/' s)).reverse

/-- `filepath.Clean(s)` on Unix. -/
def pathClean (s : String) : String :=
  renderParts (isAbs s) (cleanParts s)

/-- `filepath.Join(a, b)` on Unix: empty elements are dropped, the rest
joined with `'/'`, and the result cleaned; all-empty input yields `""`. -/
def pathJoin (a b : String) : String :=
  if a = "" && b = "" then ""
  else if a = "" then pathClean b
  else if b = "" then pathClean a
  else pathClean (a ++ "/" ++ b)

/-- `filepath.Dir(s)` on Unix: everything up to and including the final
slash, cleaned; `"."` when there is no slash. -/
def pathDir (s : String) : String :=
  pathClean ⟨(s.data.reverse.dropWhile (· ≠ '/')).reverse⟩

/-- `filepath.ToSlash(s)`: the identity on Unix, where the separator
already is `'/'`. -/
def toSlash (s : String) : String := s

/-- A `..` path segment: `".."` occurs as a slash-separated element. -/
def hasDotDotSegment (name : String) : Bool :=
  (goSplitOnChar '/' name).contains ".."

example : goSplitOnChar '/' "a//b" = ["a", "", "b"] := by decide
example : goSplitOnChar '/' "" = [""] := by decide
example : goContains "a..b.txt" ".." = true := by decide
example : goContains "a.b" ".." = false := by decide
example : hasDotDotSegment "../x" = true := by decide
example : hasDotDotSegment "a..b.txt" = false := by decide
example : pathExt "a.tar.gz" = ".gz" := by decide
example : pathExt "archive" = "" := by decide
example : pathExt "dir.d/archive" = "" := by decide
example : pathBase "/a/b.txt" = "b.txt" := by decide
example : pathBase "//" = "/" := by decide
example : pathBase "" = "." := by decide
example : pathClean "/a/b/../c//./d" = "/a/c/d" := by decide
example : pathClean "../../x" = "../../x" := by decide
example : pathClean "/.." = "/" := by decide
example : pathClean "" = "." := by decide
example : pathJoin "/tmp/out" "../../evil.txt" = "/evil.txt" := by decide
example : pathJoin "/tmp/out" "sub/f.txt" = "/tmp/out/sub/f.txt" := by decide
example : pathDir "/a/b/c.txt" = "/a/b" := by decide
example : pathDir "c.txt" = "." := by decide
example : goToLower "TAR.GZ" = "tar.gz" := by decide

/-! ## Decimal rendering of naturals (`fmt.Sprintf("%d", n)`) -/

/-- The decimal digit character for `n < 10`. -/
def digitChar : Nat → Char
  | 0 => '0' | 1 => '1' | 2 => '2' | 3 => '3' | 4 => '4'
  | 5 => '5' | 6 => '6' | 7 => '7' | 8 => '8' | _ => '9'

/-- Decimal digit characters of `n`, most significant first, with
explicit fuel (any fuel above `n` yields the digits of `n`). -/
def decReprAux : Nat → Nat → List Char
  | 0, _ => []
  | fuel + 1, n =>
    if n < 10 then [digitChar n]
    else decReprAux fuel (n / 10) ++ [digitChar (n % 10)]

/-- Decimal digit characters of `n`, most significant first. -/
def decReprL (n : Nat) : List Char := decReprAux (n + 1) n

/-- `fmt.Sprintf("%d", n)` for a natural number. -/
def decRepr (n : Nat) : String := ⟨decReprL n⟩

example : decRepr 0 = "0" := by decide
example : decRepr 907 = "907" := by decide

/-! ## Filesystem model

An abstract flat filesystem: an association list from path strings to
file contents plus a list of existing directories.  Operations model
the `os` package calls the code under verification performs; they
always succeed except where the Go call has a failure mode the claims
depend on (renaming a missing source, reading a missing file, listing
a missing directory). -/

structure FS where
  files : List (String × String)
  dirs : List String
deriving Repr, DecidableEq

/-- Content of the file at `p`, if any (`os.ReadFile`). -/
def fsFind (fs : FS) (p : String) : Option String :=
  (fs.files.find? fun e => e.1 == p).map (·.2)

/-- `os.Stat(p)` succeeds: a file or a directory exists at `p`. -/
def fsStatExists (fs : FS) (p : String) : Bool :=
  (fsFind fs p).isSome || fs.dirs.contains p

/-- `os.WriteFile` / `os.Create`: (over)write the file at `p`. -/
def fsWriteFile (fs : FS) (p c : String) : FS :=
  ⟨(p, c) :: fs.files.filter fun e => !(e.1 == p), fs.dirs⟩

/-- `os.Remove` of a file. -/
def fsRemoveFile (fs : FS) (p : String) : FS :=
  ⟨fs.files.filter (fun e => !(e.1 == p)), fs.dirs⟩

/-- `os.MkdirAll`: ensure a directory exists at `p`. -/
def fsMkdirAll (fs : FS) (p : String) : FS :=
  ⟨fs.files, if fs.dirs.contains p then fs.dirs else p :: fs.dirs⟩

/-- `os.Rename(src, dst)` of a file: fails iff no file is at `src`. -/
def fsRename (fs : FS) (src dst : String) : Option FS :=
  match fsFind fs src with
  | none => none
  | some c => some (fsWriteFile (fsRemoveFile fs src) dst c)

/-- Does `k` lie strictly below directory `d` (has prefix `d ++ "/"`)? -/
def underDir (d k : String) : Bool :=
  (d ++ "/").data.isPrefixOf k.data

/-- `os.RemoveAll(p)`: delete the file/directory at `p` and everything
below it. -/
def fsRemoveAll (fs : FS) (p : String) : FS :=
  ⟨fs.files.filter (fun e => !(e.1 == p) && !underDir p e.1),
   fs.dirs.filter (fun d => !(d == p) && !underDir p d)⟩

/-- The directory-entry name of `k` inside directory `d`: the first
path component of `k` below `d`.  Components that a real `readdir`
can never return (`""`, `"."`, `".."`) are excluded, since the flat
string-keyed model would otherwise admit directory contents that no
actual filesystem state can exhibit. -/
def childNameOf (d k : String) : Option String :=
  if (d ++ "/").data.isPrefixOf k.data then
    let n : String := ⟨(k.data.drop (d ++ "/").data.length).takeWhile (· ≠ '/')⟩
    if n = "" || n = "." || n = ".." then none else some n
  else none

/-- `os.ReadDir(d)` entry names (each once, order of first occurrence). -/
def entriesUnder (fs : FS) (d : String) : List String :=
  ((fs.files.map Prod.fst ++ fs.dirs).filterMap (childNameOf d)).dedup

/-! ## Archive format resolution (`archive.go`)

`ArchiveFiles` (both the archiver-library variant and the zip-only
variant) derives the format from the destination's extension when the
`format` argument is empty; `ExtractArchive` in the archiver-library
variant additionally rewrites the format for compound
`.tar.gz`/`.tar.bz2`/`.tar.xz` suffixes. -/

/-- The format token `ArchiveFiles` resolves: the explicit argument,
or the destination's extension without its leading dot. -/
def archiveFilesFormat (format destination : String) : String :=
  if format = "" then
    let e := pathExt destination
    if e ≠ "" then ⟨e.data.drop 1⟩ else e
  else format

/-- The archiver selected by the `switch strings.ToLower(format)` in
the archiver-library variant of `ArchiveFiles`. -/
inductive ArchiverKind where
  | zip | tar | tarGz | tarBz2 | tarXz
deriving Repr, DecidableEq

/-- Errors of the archive engine model. -/
inductive ArchiveErr where
  | rarUnsupported
  | sevenZipUnsupported
  | unsupportedFormat (format : String)
  | sourceNotFound (source : String)
  | zipOnly (format : String)
  | addFailed (source : String)
deriving Repr, DecidableEq

/-- The `switch strings.ToLower(format)` of the archiver-library
variant of `ArchiveFiles`. -/
def selectArchiver (format : String) : Except ArchiveErr ArchiverKind :=
  match goToLower format with
  | "zip" => .ok .zip
  | "tar" => .ok .tar
  | "tar.gz" => .ok .tarGz
  | "tgz" => .ok .tarGz
  | "tar.bz2" => .ok .tarBz2
  | "tbz2" => .ok .tarBz2
  | "tar.xz" => .ok .tarXz
  | "txz" => .ok .tarXz
  | "rar" => .error .rarUnsupported
  | "7z" => .error .sevenZipUnsupported
  | f => .error (.unsupportedFormat f)

/-- The format token `ExtractArchive` (archiver-library variant)
computes from `source`: the extension without its dot, except that for
sources ending in `.tar.gz`, `.tar.bz2` or `.tar.xz` whose base name
has at least three dot-separated parts, the last two parts joined by a
dot. -/
def extractFormat (source : String) : String :=
  let e := pathExt source
  let format := if e ≠ "" then (⟨e.data.drop 1⟩ : String) else e
  if goHasSuffix source ".tar.gz" || goHasSuffix source ".tar.bz2" ||
      goHasSuffix source ".tar.xz" then
    let parts := goSplitOnChar '.' (pathBase source)
    if parts.length ≥ 3 then
      parts.getD (parts.length - 2) "" ++ "." ++ parts.getD (parts.length - 1) ""
    else format
  else format

example : archiveFilesFormat "" "out.zip" = "zip" := by decide
example : archiveFilesFormat "" "out.tar.gz" = "gz" := by decide
example : archiveFilesFormat "tar.gz" "out" = "tar.gz" := by decide
example : extractFormat "a.tar.gz" = "tar.gz" := by decide
example : extractFormat "a.tgz" = "tgz" := by decide
example : extractFormat "a.zip" = "zip" := by decide
example : selectArchiver "gz" = .error (.unsupportedFormat "gz") := rfl

/-- The archiver-library variant of `ArchiveFiles`: resolve the
format, `os.Stat` every source, select the archiver, append the format
as extension when the destination has none, and let the archiver
library create the destination archive (content abstracted).  Returns
the resulting filesystem or the error. -/
def archiveFilesV1 (fs : FS) (sources : List String) (destination format : String) :
    Except ArchiveErr FS :=
  let fmtTok := archiveFilesFormat format destination
  match sources.find? (fun s => !fsStatExists fs s) with
  | some s => .error (.sourceNotFound s)
  | none =>
    match selectArchiver fmtTok with
    | .error e => .error e
    | .ok _ =>
      let dest := if pathExt destination = "" then destination ++ "." ++ fmtTok
                  else destination
      .ok (fsWriteFile fs dest "<archive>")

/-- The zip-only variant of `ArchiveFiles`: resolve the format, reject
non-zip, `os.Create` the destination, then add each source in turn,
where adding `os.Stat`s the source first (`addFileToZip`).  Returns
the filesystem as left behind (the created destination file persists
even on the per-source error path) together with the outcome. -/
def archiveFilesZip (fs : FS) (sources : List String) (destination format : String) :
    FS × Option ArchiveErr :=
  let fmtTok := archiveFilesFormat format destination
  if goToLower fmtTok ≠ "zip" then (fs, some (.zipOnly fmtTok))
  else
    let fs1 := fsWriteFile fs destination "<zip>"
    match sources.find? (fun s => !fsStatExists fs1 s) with
    | some s => (fs1, some (.addFailed s))
    | none => (fs1, none)

/-! ## Zip extraction (`ExtractArchive`, zip variant)

The extraction loop checks, for every member in container order, that
the stored name contains no `".."` substring and is not absolute, and
that the joined target path still lies within the destination after
cleaning; the first violation aborts the extraction.  `written`
records every path the loop creates content at: the member target path
for directory and file members, and the parent directory passed to
`os.MkdirAll` before a file is written (`os.MkdirAll` of an existing
directory changes nothing; it can only create ancestors of the file
target path). -/

structure ZipMember where
  name : String
  isDir : Bool
  content : String
deriving Repr, DecidableEq

inductive ExtractErr where
  | notZip
  | unsafePath (name : String)
  | traversal (fpath : String)
deriving Repr, DecidableEq

/-- The member loop of the zip variant of `ExtractArchive`. -/
def extractLoop (destination : String) :
    List ZipMember → List String → List String × Option ExtractErr
  | [], written => (written, none)
  | f :: fs, written =>
    if goContains f.name ".." || isAbs f.name then
      (written, some (.unsafePath f.name))
    else
      let fpath := pathJoin destination f.name
      if !goHasPrefix (pathClean fpath ++ "/") (pathClean destination ++ "/") then
        (written, some (.traversal fpath))
      else if f.isDir then
        extractLoop destination fs (written ++ [fpath])
      else
        extractLoop destination fs (written ++ [pathDir fpath, fpath])

/-- `ExtractArchive(source, destination)` over the member list of the
archive at `source`: reject non-`.zip` sources, then run the member
loop. -/
def extractArchive (source destination : String) (members : List ZipMember) :
    List String × Option ExtractErr :=
  if pathExt source ≠ ".zip" then ([], some .notZip)
  else extractLoop destination members []

/-- A path lies within (or is) the destination, in the sense of the
cleaned-prefix check the code performs. -/
def insideDest (destination w : String) : Prop :=
  goHasPrefix (pathClean w ++ "/") (pathClean destination ++ "/") = true

/-! ## Zip member naming (`addFileToZip`)

`ArchiveFiles` (zip variant) calls `addFileToZip(w, src, "")` for each
source; directories recurse with the entry name joined onto the
position inside the zip, files emit one member whose name is the
accumulated relative position (or `filepath.Base(src)` at top level),
converted with `filepath.ToSlash`.  The directory tree read through
`os.ReadDir` is modelled as an inductive tree. -/

mutual
inductive FsTree where
  | file (content : String)
  | dir (entries : FsEntries)
inductive FsEntries where
  | nil
  | cons (name : String) (child : FsTree) (rest : FsEntries)
end

mutual
/-- The member names `addFileToZip(zipWriter, src, baseInZip)` writes
into the zip for the filesystem subtree `t` rooted at `src`: a file
emits the accumulated relative position (or `filepath.Base(src)` at top
level) converted with `filepath.ToSlash`; a directory iterates its
`os.ReadDir` entries in order. -/
def addToZip : FsTree → String → String → List String
  | .file _, src, baseInZip =>
    [toSlash (if baseInZip = "" then pathBase src else baseInZip)]
  | .dir entries, src, baseInZip => addEntriesToZip entries src baseInZip

/-- The `for _, entry := range entries` loop of `addFileToZip`. -/
def addEntriesToZip : FsEntries → String → String → List String
  | .nil, _, _ => []
  | .cons n child rest, src, baseInZip =>
    addToZip child (pathJoin src n)
      (if baseInZip = "" then n else pathJoin baseInZip n) ++
    addEntriesToZip rest src baseInZip
end

/-- An ordinary directory-entry name: nonempty, not `"."` or `".."`,
and without a slash — precisely the names a real `readdir` can
return. -/
def ordinaryName (n : String) : Bool :=
  n ≠ "" && n ≠ "." && n ≠ ".." && !n.data.contains '/'

mutual
/-- Every entry name in the tree is an ordinary directory-entry
name. -/
def wfTree : FsTree → Bool
  | .file _ => true
  | .dir entries => wfEntries entries

def wfEntries : FsEntries → Bool
  | .nil => true
  | .cons n child rest => ordinaryName n && wfTree child && wfEntries rest
end

/-! ## Soft delete (`softdelete.go`)

The home directory returned by `os.UserHomeDir()` is modelled as the
fixed value `"/home/u"`; it is environment data, not an input of the
functions under verification.  `filepath.Join` with several arguments
joins the non-empty elements with `"/"` and cleans once. -/

/-- `filepath.Join(elems...)`. -/
def goJoinList (elems : List String) : String :=
  let ne := elems.filter (· ≠ "")
  if ne = [] then "" else pathClean (joinParts ne)

/-- `os.UserHomeDir()`, a fixed environment value in this model. -/
def homeDir : String := "/home/u"

/-- `filepath.Join(home, ".local", "share", "Trash", "files")`. -/
def linuxTrashDir : String := goJoinList [homeDir, ".local", "share", "Trash", "files"]

/-- `filepath.Join(home, ".local", "share", "Trash", "info")`. -/
def linuxInfoDir : String := goJoinList [homeDir, ".local", "share", "Trash", "info"]

/-- `filepath.Join(home, ".Trash")`. -/
def macTrashDir : String := goJoinList [homeDir, ".Trash"]

example : linuxTrashDir = "/home/u/.local/share/Trash/files" := by decide
example : linuxInfoDir = "/home/u/.local/share/Trash/info" := by decide
example : macTrashDir = "/home/u/.Trash" := by decide

inductive TrashErr where
  | probeExhausted
  | renameFailed
  | readInfoFailed
  | origPathMissing
  | removeInfoFailed
  | readDirFailed
  | restoreUnsupportedMac
  | restoreUnsupportedWindows
deriving Repr, DecidableEq

/-- The collision-probing loop shared by all three `MoveToTrash`
implementations: try `fileName`; while the trash already has an entry
of that name, try `base_1`, `base_2`, ….  The Go loop is unbounded;
the model carries fuel, and `probeExhausted` is proved unreachable for
the fuel `MoveToTrash` supplies. -/
def probeLoop (occ : String → Bool) (base : String) :
    Nat → String → Nat → Option String
  | 0, _, _ => none
  | fuel + 1, fileName, suffix =>
    if !occ fileName then some fileName
    else probeLoop occ base fuel (base ++ "_" ++ decRepr suffix) (suffix + 1)

/-- The candidate tried at step `k`: `basename` itself first, then
`basename_k`. -/
def candName (base : String) (k : Nat) : String :=
  if k = 0 then base else base ++ "_" ++ decRepr k

/-- `linuxSoftDeleter.MoveToTrash(path)` at deletion timestamp `ts`:
create the trash and info directories, probe for a free name, rename
the file into the trash, then write the `.trashinfo` metadata record.
The chosen trash name is returned alongside the new filesystem so that
theorems can speak about it. -/
def linuxMoveToTrash (ts path : String) (fs : FS) : Except TrashErr (FS × String) :=
  let fs1 := fsMkdirAll (fsMkdirAll fs linuxTrashDir) linuxInfoDir
  let base := pathBase path
  match probeLoop (fun n => fsStatExists fs1 (pathJoin linuxTrashDir n)) base
      (fs1.files.length + fs1.dirs.length + 1) base 1 with
  | none => .error .probeExhausted
  | some fileName =>
    let dest := pathJoin linuxTrashDir fileName
    match fsRename fs1 path dest with
    | none => .error .renameFailed
    | some fs2 =>
      let trashInfo := "[Trash Info]\nPath=" ++ path ++ "\nDeletionDate=" ++ ts ++ "\n"
      let infoPath := pathJoin linuxInfoDir (fileName ++ ".trashinfo")
      .ok (fsWriteFile fs2 infoPath trashInfo, fileName)

/-- `linuxSoftDeleter.RestoreFromTrash(fileName)`: read the metadata
record, take the first `Path=` line as the original path, rename the
trashed file back there, and delete the metadata record. -/
def linuxRestoreFromTrash (fileName : String) (fs : FS) : Except TrashErr FS :=
  let infoPath := pathJoin linuxInfoDir (fileName ++ ".trashinfo")
  match fsFind fs infoPath with
  | none => .error .readInfoFailed
  | some data =>
    let lines := goSplitOnChar '\n' data
    let origPath :=
      match lines.find? (fun l => goHasPrefix l "Path=") with
      | some l => goTrimPrefix l "Path="
      | none => ""
    if origPath = "" then .error .origPathMissing
    else
      let filePath := pathJoin linuxTrashDir fileName
      match fsRename fs filePath origPath with
      | none => .error .renameFailed
      | some fs2 => .ok (fsRemoveFile fs2 infoPath)

/-- `linuxSoftDeleter.EmptyTrash()`: remove the trash and info roots
and their contents, then recreate both directories. -/
def linuxEmptyTrash (fs : FS) : FS :=
  fsMkdirAll (fsMkdirAll (fsRemoveAll (fsRemoveAll fs linuxTrashDir) linuxInfoDir)
    linuxTrashDir) linuxInfoDir

/-- `linuxSoftDeleter.ListTrash()`: the entry names of the trash
directory (fails when it does not exist, as `os.ReadDir` does). -/
def linuxListTrash (fs : FS) : Except TrashErr (List String) :=
  if fs.dirs.contains linuxTrashDir then .ok (entriesUnder fs linuxTrashDir)
  else .error .readDirFailed

/-- `macSoftDeleter.MoveToTrash(path)`: as on Linux but without
metadata, into `~/.Trash`. -/
def macMoveToTrash (path : String) (fs : FS) : Except TrashErr (FS × String) :=
  let fs1 := fsMkdirAll fs macTrashDir
  let base := pathBase path
  match probeLoop (fun n => fsStatExists fs1 (pathJoin macTrashDir n)) base
      (fs1.files.length + fs1.dirs.length + 1) base 1 with
  | none => .error .probeExhausted
  | some fileName =>
    let dest := pathJoin macTrashDir fileName
    match fsRename fs1 path dest with
    | none => .error .renameFailed
    | some fs2 => .ok (fs2, fileName)

/-- `macSoftDeleter.RestoreFromTrash`: restore is unsupported on
macOS; the call fails unconditionally and touches nothing. -/
def macRestoreFromTrash (_fileName : String) (_fs : FS) : Except TrashErr FS :=
  .error .restoreUnsupportedMac

/-- `macSoftDeleter.EmptyTrash()`: list the trash root (failing when
it does not exist) and `os.RemoveAll` each entry; the root itself is
kept. -/
def macEmptyTrash (fs : FS) : Except TrashErr FS :=
  if fs.dirs.contains macTrashDir then
    .ok ((entriesUnder fs macTrashDir).foldl
      (fun s n => fsRemoveAll s (pathJoin macTrashDir n)) fs)
  else .error .readDirFailed

/-- `macSoftDeleter.ListTrash()`. -/
def macListTrash (fs : FS) : Except TrashErr (List String) :=
  if fs.dirs.contains macTrashDir then .ok (entriesUnder fs macTrashDir)
  else .error .readDirFailed

/-- `windowsSoftDeleter.RestoreFromTrash`: restore is unsupported on
Windows; the call fails unconditionally and touches nothing. -/
def windowsRestoreFromTrash (_fileName : String) (_fs : FS) : Except TrashErr FS :=
  .error .restoreUnsupportedWindows

/-! ## Basic lemmas about the string primitives -/

theorem splitSepL_ne_nil (sep : Char) (l : List Char) : splitSepL sep l ≠ [] := by
  induction l with
  | nil => simp [splitSepL]
  | cons c cs ih =>
    simp only [splitSepL]
    rcases h : splitSepL sep cs with _ | ⟨h1, t⟩
    · exact absurd h ih
    · by_cases hc : c = sep <;> simp [hc]

theorem splitSepL_append (sep : Char) (xs ys : List Char) :
    splitSepL sep (xs ++ sep :: ys) = splitSepL sep xs ++ splitSepL sep ys := by
  induction xs with
  | nil =>
    simp only [List.nil_append, splitSepL]
    rcases h : splitSepL sep ys with _ | ⟨h1, t⟩
    · exact absurd h (splitSepL_ne_nil sep ys)
    · simp
  | cons c cs ih =>
    simp only [List.cons_append, splitSepL, List.append_eq]
    rw [ih]
    rcases h : splitSepL sep cs with _ | ⟨h1, t⟩
    · exact absurd h (splitSepL_ne_nil sep cs)
    · simp only [List.cons_append]
      by_cases hc : c = sep <;> simp [hc]

theorem splitSepL_no_sep (sep : Char) (l : List Char) (h : sep ∉ l) :
    splitSepL sep l = [l] := by
  induction l with
  | nil => rfl
  | cons c cs ih =>
    simp only [List.mem_cons, not_or] at h
    simp only [splitSepL, ih h.2]
    simp [Ne.symm h.1]

theorem splitSepL_headIsPre (sep : Char) (l h1 : List Char) (t : List (List Char))
    (h : splitSepL sep l = h1 :: t) : h1 <+: l := by
  induction l generalizing h1 t with
  | nil =>
    simp only [splitSepL, List.cons.injEq] at h
    simp [← h.1]
  | cons x xs ih =>
    simp only [splitSepL] at h
    rcases hs : splitSepL sep xs with _ | ⟨h2, t2⟩
    · exact absurd hs (splitSepL_ne_nil sep xs)
    · rw [hs] at h
      dsimp only at h
      by_cases hx : x = sep
      · rw [if_pos hx] at h
        injection h with h1e _te
        rw [← h1e]
        exact List.nil_prefix
      · rw [if_neg hx] at h
        injection h with h1e _te
        obtain ⟨t3, ht3⟩ := ih h2 t2 hs
        exact ⟨t3, by rw [← h1e, List.cons_append, ht3]⟩

theorem mem_splitSepL_isInfixOf (sep : Char) (l c : List Char) (h : c ∈ splitSepL sep l) :
    c <:+: l := by
  induction l generalizing c with
  | nil => simp only [splitSepL, List.mem_singleton] at h; simp [h]
  | cons x xs ih =>
    simp only [splitSepL] at h
    rcases hs : splitSepL sep xs with _ | ⟨h1, t⟩
    · exact absurd hs (splitSepL_ne_nil sep xs)
    · rw [hs] at h
      dsimp only at h
      by_cases hx : x = sep
      · rw [if_pos hx] at h
        simp only [List.mem_cons] at h
        rcases h with rfl | h
        · exact List.infix_cons List.nil_infix
        · exact (ih c (by rw [hs]; exact List.mem_cons.mpr h)).trans
            (List.infix_cons (List.infix_refl xs))
      · rw [if_neg hx] at h
        simp only [List.mem_cons] at h
        rcases h with rfl | h
        · exact (splitSepL_headIsPre sep (x :: xs) (x :: h1) t (by
            simp only [splitSepL, hs, if_neg hx])).isInfix
        · exact (ih c (by rw [hs]; exact List.mem_cons_of_mem h1 h)).trans
            (List.infix_cons (List.infix_refl xs))

theorem containsSubL_append_self (sub t : List Char) :
    containsSubL sub (sub ++ t) = true := by
  cases hst : sub ++ t with
  | nil =>
    have hs := (List.append_eq_nil.mp hst).1
    subst hs
    rfl
  | cons c cs =>
    have hpre : sub.isPrefixOf (c :: cs) = true := by
      rw [← hst]
      exact List.isPrefixOf_iff_prefix.mpr ⟨t, rfl⟩
    simp [containsSubL, hpre]

theorem containsSubL_of_isInfixOf (sub l : List Char) (h : sub <:+: l) :
    containsSubL sub l = true := by
  obtain ⟨s, t, rfl⟩ := h
  induction s with
  | nil => simpa using containsSubL_append_self sub t
  | cons c cs ih =>
    have : (c :: cs) ++ sub ++ t = c :: (cs ++ sub ++ t) := by simp
    rw [this]
    simp only [containsSubL, ih, Bool.or_true]

/-! ## Extraction safety (claims C1, C10) -/

theorem goContains_of_dotdot_segment (n : String) (h : hasDotDotSegment n = true) :
    goContains n ".." = true := by
  unfold hasDotDotSegment at h
  rw [List.contains_iff_exists_mem_beq] at h
  obtain ⟨a, ha, hbeq⟩ := h
  have haeq : a = ".." := by
    have := eq_of_beq hbeq
    exact this.symm ▸ rfl
  subst haeq
  unfold goSplitOnChar at ha
  rw [List.mem_map] at ha
  obtain ⟨chunk, hchunk, hmk⟩ := ha
  have hdata : chunk = "..".data := by
    have := congrArg String.data hmk
    simpa using this
  subst hdata
  exact containsSubL_of_isInfixOf _ _ (mem_splitSepL_isInfixOf '/' _ _ hchunk)

theorem extractLoop_err_ne_notZip (dest : String) (ms : List ZipMember)
    (w : List String) (e : ExtractErr)
    (h : (extractLoop dest ms w).2 = some e) : e ≠ ExtractErr.notZip := by
  induction ms generalizing w with
  | nil => simp [extractLoop] at h
  | cons f fs ih =>
    simp only [extractLoop] at h
    by_cases h1 : goContains f.name ".." || isAbs f.name
    · rw [if_pos h1] at h
      simp only [Option.some.injEq] at h
      rw [← h]
      intro hcon
      exact ExtractErr.noConfusion hcon
    · rw [if_neg h1] at h
      by_cases h2 : !goHasPrefix (pathClean (pathJoin dest f.name) ++ "/")
          (pathClean dest ++ "/")
      · rw [if_pos h2] at h
        simp only [Option.some.injEq] at h
        rw [← h]
        intro hcon
        exact ExtractErr.noConfusion hcon
      · rw [if_neg h2] at h
        by_cases h3 : f.isDir
        · rw [if_pos h3] at h; exact ih _ h
        · rw [if_neg h3] at h; exact ih _ h

theorem extractLoop_none_all_safe (dest : String) (ms : List ZipMember)
    (w : List String) (h : (extractLoop dest ms w).2 = none) :
    ∀ f ∈ ms, goContains f.name ".." = false ∧ isAbs f.name = false ∧
      goHasPrefix (pathClean (pathJoin dest f.name) ++ "/")
        (pathClean dest ++ "/") = true := by
  induction ms generalizing w with
  | nil => intro f hf; simp at hf
  | cons g gs ih =>
    intro f hf
    simp only [extractLoop] at h
    by_cases h1 : goContains g.name ".." || isAbs g.name
    · rw [if_pos h1] at h; simp at h
    · rw [if_neg h1] at h
      by_cases h2 : !goHasPrefix (pathClean (pathJoin dest g.name) ++ "/")
          (pathClean dest ++ "/")
      · rw [if_pos h2] at h; simp at h
      · rw [if_neg h2] at h
        rcases List.mem_cons.mp hf with rfl | hf'
        · refine ⟨?_, ?_, ?_⟩
          · cases hval : goContains f.name ".." with
            | false => rfl
            | true => exact absurd ((Bool.or_eq_true _ _).mpr (Or.inl hval)) h1
          · cases hval : isAbs f.name with
            | false => rfl
            | true => exact absurd ((Bool.or_eq_true _ _).mpr (Or.inr hval)) h1
          · simpa using h2
        · by_cases h3 : f.isDir
          all_goals {
            by_cases h4 : g.isDir
            · rw [if_pos h4] at h; exact ih _ h f hf'
            · rw [if_neg h4] at h; exact ih _ h f hf' }

theorem extractLoop_writes_inside (dest : String) (ms : List ZipMember)
    (w0 : List String)
    (h0 : ∀ w ∈ w0, insideDest dest w ∨ ∃ fp, insideDest dest fp ∧ w = pathDir fp) :
    ∀ w ∈ (extractLoop dest ms w0).1,
      insideDest dest w ∨ ∃ fp, insideDest dest fp ∧ w = pathDir fp := by
  induction ms generalizing w0 with
  | nil => simpa [extractLoop] using h0
  | cons g gs ih =>
    simp only [extractLoop]
    by_cases h1 : goContains g.name ".." || isAbs g.name
    · rw [if_pos h1]; exact h0
    · rw [if_neg h1]
      by_cases h2 : !goHasPrefix (pathClean (pathJoin dest g.name) ++ "/")
          (pathClean dest ++ "/")
      · rw [if_pos h2]; exact h0
      · rw [if_neg h2]
        have hin : insideDest dest (pathJoin dest g.name) := by
          unfold insideDest
          simpa using h2
        by_cases h3 : g.isDir
        · rw [if_pos h3]
          refine ih _ ?_
          intro w hw
          rcases List.mem_append.mp hw with hw | hw
          · exact h0 w hw
          · rcases List.mem_singleton.mp hw with rfl
            exact Or.inl hin
        · rw [if_neg h3]
          refine ih _ ?_
          intro w hw
          rcases List.mem_append.mp hw with hw | hw
          · exact h0 w hw
          · rcases List.mem_cons.mp hw with rfl | hw
            · exact Or.inr ⟨pathJoin dest g.name, hin, rfl⟩
            · rcases List.mem_singleton.mp hw with rfl
              exact Or.inl hin

/-- **C1**: for every archive member whose stored name contains a `..` path
segment or is filesystem-absolute, or whose joined target path after cleaning
does not lie strictly within the destination directory, `ExtractArchive`
returns a path-safety error (never the mere format error) and aborts the
extraction; every path the run wrote content to lies within the destination,
and every other `os.MkdirAll` target is the parent directory of such a path. -/
theorem extractArchive_traversal_safety (source destination : String)
    (members : List ZipMember) (hzip : pathExt source = ".zip")
    (hbad : ∃ m ∈ members, hasDotDotSegment m.name = true ∨ isAbs m.name = true ∨
      goHasPrefix (pathClean (pathJoin destination m.name) ++ "/")
        (pathClean destination ++ "/") = false) :
    (∃ e, (extractArchive source destination members).2 = some e ∧
      e ≠ ExtractErr.notZip) ∧
    ∀ w ∈ (extractArchive source destination members).1,
      insideDest destination w ∨ ∃ fp, insideDest destination fp ∧ w = pathDir fp := by
  have harch : extractArchive source destination members =
      extractLoop destination members [] := by
    unfold extractArchive
    rw [if_neg (by simp [hzip])]
  rw [harch]
  constructor
  · rcases he : (extractLoop destination members []).2 with _ | e
    · exfalso
      obtain ⟨m, hm, hcase⟩ := hbad
      have hsafe := extractLoop_none_all_safe destination members [] he m hm
      rcases hcase with hc | hc | hc
      · have h1 := hsafe.1
        rw [goContains_of_dotdot_segment m.name hc] at h1
        exact Bool.noConfusion h1
      · have h1 := hsafe.2.1
        rw [hc] at h1
        exact Bool.noConfusion h1
      · have h1 := hsafe.2.2
        rw [hc] at h1
        exact Bool.noConfusion h1
    · exact ⟨e, rfl, extractLoop_err_ne_notZip destination members [] e he⟩
  · exact extractLoop_writes_inside destination members [] (by intro w hw; simp at hw)

/-- Witness for C1: a member named `../../evil.txt` aborts the extraction
with a path-safety error and nothing is written outside `/tmp/out`. -/
theorem extractArchive_traversal_safety_witness :
    (∃ e, (extractArchive "a.zip" "/tmp/out"
      [⟨"../../evil.txt", false, "x"⟩]).2 = some e ∧ e ≠ ExtractErr.notZip) ∧
    ∀ w ∈ (extractArchive "a.zip" "/tmp/out" [⟨"../../evil.txt", false, "x"⟩]).1,
      insideDest "/tmp/out" w ∨ ∃ fp, insideDest "/tmp/out" fp ∧ w = pathDir fp :=
  extractArchive_traversal_safety "a.zip" "/tmp/out" _ (by decide)
    ⟨⟨"../../evil.txt", false, "x"⟩, by simp, Or.inl (by decide)⟩

/-- **C10**: the zip extraction path rejects any member whose stored name
contains the two-character substring `..` anywhere, and the check is strictly
stronger than rejecting `..` path segments: the ordinary file name
`a..b.txt` contains the substring but no `..` segment, so an archive holding
it fails to extract. -/
theorem extractArchive_rejects_dotdot_substring (source destination : String)
    (members : List ZipMember) (m : ZipMember) (hm : m ∈ members)
    (hsub : goContains m.name ".." = true) :
    ((extractArchive source destination members).2).isSome = true ∧
    goContains "a..b.txt" ".." = true ∧ hasDotDotSegment "a..b.txt" = false := by
  refine ⟨?_, by decide, by decide⟩
  unfold extractArchive
  by_cases hz : pathExt source ≠ ".zip"
  · rw [if_pos hz]
    rfl
  · rw [if_neg hz]
    rcases he : (extractLoop destination members []).2 with _ | e
    · have h1 := (extractLoop_none_all_safe destination members [] he m hm).1
      rw [hsub] at h1
      exact Bool.noConfusion h1
    · rfl

/-- Witness for C10: an archive whose only member is the benign-looking
name `a..b.txt` fails to extract. -/
theorem extractArchive_rejects_dotdot_substring_witness :
    ((extractArchive "a.zip" "/tmp/out" [⟨"a..b.txt", false, ""⟩]).2).isSome = true ∧
    goContains "a..b.txt" ".." = true ∧ hasDotDotSegment "a..b.txt" = false :=
  extractArchive_rejects_dotdot_substring "a.zip" "/tmp/out" _
    ⟨"a..b.txt", false, ""⟩ (by simp) (by decide)

/-- **C7**: on the variants without metadata (macOS and Windows),
`RestoreFromTrash(name)` returns the restore-unsupported error for every
input name and every filesystem state, and performs no filesystem
changes (no updated filesystem is ever produced). -/
theorem restoreFromTrash_unsupported_mac_windows (n : String) (fs : FS) :
    macRestoreFromTrash n fs = .error .restoreUnsupportedMac ∧
    windowsRestoreFromTrash n fs = .error .restoreUnsupportedWindows :=
  ⟨rfl, rfl⟩

/-! ## Format resolution (claim C2) -/

theorem pathExt_of_targz_suffix (d : String) (h : goHasSuffix d ".tar.gz" = true) :
    pathExt d = ".gz" := by
  unfold goHasSuffix at h
  rw [List.isSuffixOf_iff_suffix] at h
  obtain ⟨pre, hpre⟩ := h
  unfold pathExt
  have hd : d.data = pre ++ ".tar.gz".data := hpre.symm
  rw [hd, List.reverse_append]
  simp [extRevAux]

theorem archiveFilesFormat_of_targz_suffix (d : String)
    (h : goHasSuffix d ".tar.gz" = true) : archiveFilesFormat "" d = "gz" := by
  unfold archiveFilesFormat
  rw [if_pos rfl, pathExt_of_targz_suffix d h]
  rfl

/-- Counterexample to C2 as stated: with an empty format argument and
destination `out.tar.gz`, `ArchiveFiles` resolves the format to `gz`,
which its format switch rejects as unsupported — the TarGz variant is
not selected. -/
theorem archiveFiles_targz_unsupported_counterexample :
    archiveFilesFormat "" "out.tar.gz" = "gz" ∧
    selectArchiver (archiveFilesFormat "" "out.tar.gz") =
      .error (ArchiveErr.unsupportedFormat "gz") :=
  ⟨by decide, rfl⟩

theorem getD_append_length_add (A B : List String) (i : Nat) (d : String) :
    (A ++ B).getD (A.length + i) d = B.getD i d := by
  induction A with
  | nil => simp
  | cons a as ih => simpa [Nat.succ_add] using ih

theorem pathBase_of_targz_suffix (s : String) (h : goHasSuffix s ".tar.gz" = true) :
    ∃ q : List Char, '/' ∉ q ∧ (pathBase s).data = q ++ ".tar.gz".data := by
  unfold goHasSuffix at h
  rw [List.isSuffixOf_iff_suffix] at h
  obtain ⟨pre, hpre⟩ := h
  have hd : s.data = pre ++ ".tar.gz".data := hpre.symm
  have hne : s ≠ "" := by
    intro he
    rw [he] at hd
    simp at hd
  unfold pathBase
  rw [if_neg hne]
  have hrev : ".tar.gz".data.reverse = ['z', 'g', '.', 'r', 'a', 't', '.'] := by decide
  simp only [hd, List.reverse_append, hrev]
  simp only [List.cons_append, List.dropWhile_cons, decide_eq_true_eq,
    reduceIte, List.takeWhile_cons, List.nil_append]
  refine ⟨(pre.reverse.takeWhile (· ≠ '/')).reverse, ?_, ?_⟩
  · intro hmem
    rw [List.mem_reverse] at hmem
    have := List.mem_takeWhile_imp hmem
    simp at this
  · simp [List.reverse_cons, List.append_assoc]

theorem extractFormat_of_targz_suffix (s : String) (h : goHasSuffix s ".tar.gz" = true) :
    extractFormat s = "tar.gz" := by
  obtain ⟨q, hq, hbase⟩ := pathBase_of_targz_suffix s h
  unfold extractFormat
  rw [h]
  simp only [Bool.true_or, if_pos]
  have hsplit : goSplitOnChar '.' (pathBase s) =
      (splitSepL '.' q).map (fun l => (⟨l⟩ : String)) ++ ["tar", "gz"] := by
    unfold goSplitOnChar
    rw [hbase]
    have : q ++ ".tar.gz".data = q ++ '.' :: "tar.gz".data := rfl
    rw [this, splitSepL_append]
    have h2 : splitSepL '.' "tar.gz".data = [['t', 'a', 'r'], ['g', 'z']] := by decide
    rw [h2]
    simp
  rw [hsplit]
  have hlen : ((splitSepL '.' q).map (fun l => (⟨l⟩ : String))).length ≥ 1 := by
    rcases hsq : splitSepL '.' q with _ | ⟨a, t⟩
    · exact absurd hsq (splitSepL_ne_nil '.' q)
    · simp
  set A := (splitSepL '.' q).map (fun l => (⟨l⟩ : String)) with hA
  have hlen2 : (A ++ ["tar", "gz"]).length = A.length + 2 := by simp
  rw [if_pos (by omega)]
  have e1 : (A ++ ["tar", "gz"]).length - 2 = A.length + 0 := by omega
  have e2 : (A ++ ["tar", "gz"]).length - 1 = A.length + 1 := by omega
  rw [e1, e2, getD_append_length_add, getD_append_length_add]
  rfl

/-- **C2 (amended)**: with an empty format argument, the archiver-library
`ExtractArchive` resolves compound extensions before single ones: a source
ending in `.tar.gz` resolves to the token `tar.gz`, which selects the TarGz
archiver.  `ArchiveFiles`, however, derives its token from the final
extension only, so a destination ending in `.tar.gz` resolves to `gz`,
which its format switch rejects as an unsupported format. -/
theorem format_resolution_compound_extension (s d : String)
    (hs : goHasSuffix s ".tar.gz" = true) (hd : goHasSuffix d ".tar.gz" = true) :
    extractFormat s = "tar.gz" ∧
    selectArchiver (extractFormat s) = .ok ArchiverKind.tarGz ∧
    archiveFilesFormat "" d = "gz" ∧
    selectArchiver (archiveFilesFormat "" d) =
      .error (ArchiveErr.unsupportedFormat "gz") := by
  have h1 := extractFormat_of_targz_suffix s hs
  have h2 := archiveFilesFormat_of_targz_suffix d hd
  exact ⟨h1, by rw [h1]; rfl, h2, by rw [h2]; rfl⟩

/-- Witness for C2 (amended): source `a.tar.gz` extracts as TarGz while
destination `out.tar.gz` archives as unsupported `gz`. -/
theorem format_resolution_compound_extension_witness :
    extractFormat "a.tar.gz" = "tar.gz" ∧
    selectArchiver (extractFormat "a.tar.gz") = .ok ArchiverKind.tarGz ∧
    archiveFilesFormat "" "out.tar.gz" = "gz" ∧
    selectArchiver (archiveFilesFormat "" "out.tar.gz") =
      .error (ArchiveErr.unsupportedFormat "gz") :=
  format_resolution_compound_extension "a.tar.gz" "out.tar.gz" (by decide) (by decide)

/-! ## Filesystem operation lemmas -/

theorem fsFind_write_self (fs : FS) (p c : String) :
    fsFind (fsWriteFile fs p c) p = some c := by
  simp [fsFind, fsWriteFile, List.find?]

theorem fsFind_write_other (fs : FS) (p c q : String) (h : q ≠ p) :
    fsFind (fsWriteFile fs p c) q = fsFind fs q := by
  unfold fsFind fsWriteFile
  simp only [List.find?]
  have hpq : (p == q) = false := beq_eq_false_iff_ne.mpr (Ne.symm h)
  rw [hpq]
  simp only [Bool.false_eq_true, reduceIte]
  congr 1
  induction fs.files with
  | nil => rfl
  | cons e es ih =>
    simp only [List.filter]
    by_cases he : e.1 = p
    · have h1 : (e.1 == p) = true := beq_iff_eq.mpr he
      rw [h1]
      simp only [Bool.not_true]
      have h2 : (e.1 == q) = false :=
        beq_eq_false_iff_ne.mpr (by rw [he]; exact Ne.symm h)
      rw [List.find?, h2]
      simp only [Bool.false_eq_true, reduceIte]
      exact ih
    · have h1 : (e.1 == p) = false := beq_eq_false_iff_ne.mpr he
      rw [h1]
      simp only [Bool.not_false]
      rw [List.find?, List.find?]
      by_cases hq : (e.1 == q) = true
      · rw [hq]
      · rw [Bool.eq_false_iff.mpr hq]
        simp only [Bool.false_eq_true, reduceIte]
        exact ih

theorem fsStatExists_write_other (fs : FS) (p c q : String) (h : q ≠ p) :
    fsStatExists (fsWriteFile fs p c) q = fsStatExists fs q := by
  unfold fsStatExists
  rw [fsFind_write_other fs p c q h]
  rfl

/-! ## ArchiveFiles error ordering (claim C3) -/

/-- Counterexample to C3 as stated: in the zip variant, archiving the
missing source `missing.txt` into `out.zip` over an empty filesystem
fails with the per-source error, yet the destination file exists on
that error path — it was created before the sources were examined. -/
theorem archiveFilesZip_creates_dest_counterexample :
    (archiveFilesZip ⟨[], []⟩ ["missing.txt"] "out.zip" "").2 =
      some (ArchiveErr.addFailed "missing.txt") ∧
    fsFind (archiveFilesZip ⟨[], []⟩ ["missing.txt"] "out.zip" "").1 "out.zip" =
      some "<zip>" := by
  constructor <;> rfl

/-- **C3 (amended)**: an unsupported resolved format fails both variants of
`ArchiveFiles` before any file is created; a missing source fails the
archiver-library variant before anything is written, but the zip variant
creates the destination with `os.Create` first and only then detects the
missing source inside `addFileToZip`, so on that error path the destination
file exists. -/
theorem archiveFiles_error_paths (fs : FS) (sources : List String)
    (destination format : String) :
    (∀ e, selectArchiver (archiveFilesFormat format destination) = .error e →
      (∀ s ∈ sources, fsStatExists fs s = true) →
      archiveFilesV1 fs sources destination format = .error e) ∧
    ((∃ s ∈ sources, fsStatExists fs s = false) →
      ∃ s', archiveFilesV1 fs sources destination format =
        .error (ArchiveErr.sourceNotFound s') ∧ fsStatExists fs s' = false) ∧
    (goToLower (archiveFilesFormat format destination) ≠ "zip" →
      archiveFilesZip fs sources destination format =
        (fs, some (ArchiveErr.zipOnly (archiveFilesFormat format destination)))) ∧
    (goToLower (archiveFilesFormat format destination) = "zip" →
      (∃ s ∈ sources, fsStatExists fs s = false ∧ s ≠ destination) →
      ∃ s', (archiveFilesZip fs sources destination format).2 =
          some (ArchiveErr.addFailed s') ∧
        fsFind (archiveFilesZip fs sources destination format).1 destination =
          some "<zip>") := by
  refine ⟨?_, ?_, ?_, ?_⟩
  · intro e hsel hall
    have hfind : sources.find? (fun s => !fsStatExists fs s) = none := by
      rw [List.find?_eq_none]
      intro s hsmem
      rw [hall s hsmem]
      simp
    simp only [archiveFilesV1, hfind, hsel]
  · intro hex
    obtain ⟨s, hsmem, hmiss⟩ := hex
    have hsome : (sources.find? (fun s => !fsStatExists fs s)).isSome := by
      rw [List.find?_isSome]
      exact ⟨s, hsmem, by rw [hmiss]; rfl⟩
    rcases hfind : sources.find? (fun s => !fsStatExists fs s) with _ | s'
    · rw [hfind] at hsome; simp at hsome
    · refine ⟨s', ?_, ?_⟩
      · simp only [archiveFilesV1, hfind]
      · have := List.find?_some hfind
        simpa using this
  · intro hne
    simp only [archiveFilesZip]
    rw [if_pos (by simpa using hne)]
  · intro hzip hex
    obtain ⟨s, hsmem, hmiss, hsd⟩ := hex
    simp only [archiveFilesZip]
    rw [if_neg (by simpa using hzip)]
    have hmiss1 : fsStatExists (fsWriteFile fs destination "<zip>") s = false := by
      rw [fsStatExists_write_other fs destination "<zip>" s hsd]
      exact hmiss
    have hsome : ((sources.find?
        (fun x => !fsStatExists (fsWriteFile fs destination "<zip>") x))).isSome := by
      rw [List.find?_isSome]
      exact ⟨s, hsmem, by rw [hmiss1]; rfl⟩
    rcases hfind : sources.find?
        (fun x => !fsStatExists (fsWriteFile fs destination "<zip>") x) with _ | s'
    · rw [hfind] at hsome; simp at hsome
    · exact ⟨s', rfl, fsFind_write_self fs destination "<zip>"⟩

/-- Witness for C3 (amended): `out.xyz` with no format fails as
unsupported with nothing created; a missing source fails the
archiver-library variant before creation but leaves `out.zip` created in
the zip variant. -/
theorem archiveFiles_error_paths_witness :
    archiveFilesV1 ⟨[("a.txt", "x")], []⟩ ["a.txt"] "out.xyz" "" =
      .error (ArchiveErr.unsupportedFormat "xyz") ∧
    (∃ s', archiveFilesV1 ⟨[], []⟩ ["gone.txt"] "out.zip" "" =
      .error (ArchiveErr.sourceNotFound s') ∧ fsStatExists ⟨[], []⟩ s' = false) ∧
    (∃ s', (archiveFilesZip ⟨[], []⟩ ["gone.txt"] "out.zip" "").2 =
        some (ArchiveErr.addFailed s') ∧
      fsFind (archiveFilesZip ⟨[], []⟩ ["gone.txt"] "out.zip" "").1 "out.zip" =
        some "<zip>") := by
  refine ⟨?_, ?_, ?_⟩
  · exact (archiveFiles_error_paths ⟨[("a.txt", "x")], []⟩ ["a.txt"] "out.xyz" "").1
      (ArchiveErr.unsupportedFormat "xyz") rfl (by decide)
  · exact (archiveFiles_error_paths ⟨[], []⟩ ["gone.txt"] "out.zip" "").2.1
      ⟨"gone.txt", by simp, by decide⟩
  · exact (archiveFiles_error_paths ⟨[], []⟩ ["gone.txt"] "out.zip" "").2.2.2
      (by decide) ⟨"gone.txt", by simp, by decide, by decide⟩

/-! ## Injectivity of the decimal rendering -/

/-- Numeric value of a decimal digit character. -/
def digitVal : Char → Nat
  | '0' => 0 | '1' => 1 | '2' => 2 | '3' => 3 | '4' => 4
  | '5' => 5 | '6' => 6 | '7' => 7 | '8' => 8 | _ => 9

/-- Valuation of a digit-character list, most significant first. -/
def valL (l : List Char) : Nat :=
  l.foldl (fun a c => 10 * a + digitVal c) 0

theorem valL_append_digit (l : List Char) (c : Char) :
    valL (l ++ [c]) = 10 * valL l + digitVal c := by
  unfold valL
  rw [List.foldl_append]
  rfl

theorem digitVal_digitChar (n : Nat) (h : n < 10) :
    digitVal (digitChar n) = n := by
  interval_cases n <;> rfl

theorem valL_decReprAux (fuel n : Nat) (h : n < fuel) :
    valL (decReprAux fuel n) = n := by
  induction fuel generalizing n with
  | zero => omega
  | succ fuel ih =>
    unfold decReprAux
    by_cases h10 : n < 10
    · rw [if_pos h10]
      unfold valL
      simp [digitVal_digitChar n h10]
    · rw [if_neg h10]
      rw [valL_append_digit]
      have hdiv : n / 10 < fuel := by
        have := Nat.div_lt_self (by omega : 0 < n) (by omega : 1 < 10)
        omega
      rw [ih (n / 10) hdiv, digitVal_digitChar (n % 10) (Nat.mod_lt n (by omega))]
      omega

theorem valL_decReprL (n : Nat) : valL (decReprL n) = n :=
  valL_decReprAux (n + 1) n (by omega)

theorem decReprL_injective (m n : Nat) (h : decReprL m = decReprL n) : m = n := by
  have := congrArg valL h
  rwa [valL_decReprL, valL_decReprL] at this

theorem decRepr_injective (m n : Nat) (h : decRepr m = decRepr n) : m = n := by
  apply decReprL_injective
  have := congrArg String.data h
  simpa [decRepr] using this

theorem decReprAux_ne_nil (fuel n : Nat) (h : 0 < fuel) : decReprAux fuel n ≠ [] := by
  cases fuel with
  | zero => omega
  | succ fuel =>
    unfold decReprAux
    by_cases h10 : n < 10
    · rw [if_pos h10]; simp
    · rw [if_neg h10]; simp

theorem digitChar_mem_digits (n : Nat) :
    digitChar n ∈ ['0', '1', '2', '3', '4', '5', '6', '7', '8', '9'] := by
  unfold digitChar
  rcases n with _ | _ | _ | _ | _ | _ | _ | _ | _ | n <;> simp

theorem decReprAux_chars_digits (fuel n : Nat) (c : Char)
    (h : c ∈ decReprAux fuel n) :
    c ∈ ['0', '1', '2', '3', '4', '5', '6', '7', '8', '9'] := by
  induction fuel generalizing n with
  | zero => simp [decReprAux] at h
  | succ fuel ih =>
    unfold decReprAux at h
    by_cases h10 : n < 10
    · rw [if_pos h10] at h
      rcases List.mem_singleton.mp h
      exact digitChar_mem_digits n
    · rw [if_neg h10] at h
      rcases List.mem_append.mp h with h | h
      · exact ih (n / 10) h
      · rcases List.mem_singleton.mp h
        exact digitChar_mem_digits (n % 10)

theorem decRepr_no_slash (n : Nat) (c : Char) (h : c ∈ (decRepr n).data) :
    c ≠ '/' := by
  intro hc
  subst hc
  have := decReprAux_chars_digits (n + 1) n '/' h
  simp at this

/-! ## Ordinary names, joined parts, and normalisation of `Join` -/

theorem ordinaryName_iff (n : String) :
    ordinaryName n = true ↔ n ≠ "" ∧ n ≠ "." ∧ n ≠ ".." ∧ '/' ∉ n.data := by
  unfold ordinaryName
  simp [List.contains_iff_exists_mem_beq, and_assoc]

theorem joinParts_cons (p q : String) (qs : List String) :
    joinParts (p :: q :: qs) = p ++ "/" ++ joinParts (q :: qs) := rfl

theorem joinParts_data_cons (p : String) (ps : List String) (h : ps ≠ []) :
    (joinParts (p :: ps)).data = p.data ++ '/' :: (joinParts ps).data := by
  rcases ps with _ | ⟨q, qs⟩
  · exact absurd rfl h
  · rw [joinParts_cons]
    simp [String.data_append]

theorem joinParts_append_single (xs : List String) (n : String) (h : xs ≠ []) :
    joinParts (xs ++ [n]) = joinParts xs ++ "/" ++ n := by
  induction xs with
  | nil => exact absurd rfl h
  | cons x xs ih =>
    rcases xs with _ | ⟨y, ys⟩
    · rfl
    · have h2 : (y :: ys) ++ [n] = y :: (ys ++ [n]) := rfl
      have h1 : (x :: y :: ys) ++ [n] = x :: y :: (ys ++ [n]) := rfl
      rw [h1, joinParts_cons x, ← h2, ih (by simp), joinParts_cons]
      simp [String.append_assoc]

theorem splitSepL_joinParts (ps : List String) (hne : ps ≠ [])
    (hsf : ∀ p ∈ ps, '/' ∉ p.data) :
    splitSepL '/' (joinParts ps).data = ps.map String.data := by
  induction ps with
  | nil => exact absurd rfl hne
  | cons p ps ih =>
    rcases ps with _ | ⟨q, qs⟩
    · simpa [joinParts] using
        splitSepL_no_sep '/' p.data (hsf p (by simp))
    · rw [joinParts_data_cons p (q :: qs) (by simp), splitSepL_append]
      rw [ih (by simp) (fun x hx => hsf x (List.mem_cons_of_mem p hx))]
      rw [splitSepL_no_sep '/' p.data (hsf p (by simp))]
      rfl

theorem cleanStack_pushes (r : Bool) (ps : List String) (S : List String)
    (h : ∀ p ∈ ps, p ≠ "" ∧ p ≠ "." ∧ p ≠ "..") :
    cleanStack r S ps = ps.reverse ++ S := by
  induction ps generalizing S with
  | nil => simp [cleanStack]
  | cons c cs ih =>
    have hc := h c (by simp)
    unfold cleanStack
    rw [if_neg (by simp [hc.1, hc.2.1]), if_neg hc.2.2]
    rw [ih (c :: S) (fun p hp => h p (List.mem_cons_of_mem c hp))]
    simp

theorem mk_comp_data_eq_id :
    (fun l => (⟨l⟩ : String)) ∘ String.data = id := by
  funext s
  rfl

/-- `filepath.Join(d, n)` for `d = "/" ++ joinParts ps` with ordinary
components and an ordinary entry name `n` is plain concatenation:
cleaning changes nothing. -/
theorem pathJoin_parts (d n : String) (ps : List String)
    (hd : d.data = '/' :: (joinParts ps).data)
    (hps : ps ≠ []) (hord : ∀ p ∈ ps, ordinaryName p = true)
    (hn : ordinaryName n = true) :
    pathJoin d n = d ++ "/" ++ n := by
  obtain ⟨hn1, hn2, hn3, hn4⟩ := (ordinaryName_iff n).mp hn
  have hdne : d ≠ "" := by
    intro he
    rw [he] at hd
    simp at hd
  unfold pathJoin
  rw [if_neg (by simp [hdne]), if_neg (by simp [hdne]), if_neg hn1]
  have hdata : (d ++ "/" ++ n).data =
      '/' :: ((joinParts ps).data ++ '/' :: n.data) := by
    simp [String.data_append, hd]
  have habs : isAbs (d ++ "/" ++ n) = true := by
    unfold isAbs
    rw [hdata]
    rfl
  have hsplit : goSplitOnChar '/' (d ++ "/" ++ n) = "" :: (ps ++ [n]) := by
    unfold goSplitOnChar
    rw [hdata]
    have h1 : ∀ rest : List Char, splitSepL '/' ('/' :: rest) =
        [] :: splitSepL '/' rest := by
      intro rest
      rcases hs : splitSepL '/' rest with _ | ⟨a, t⟩
      · exact absurd hs (splitSepL_ne_nil _ _)
      · simp [splitSepL, hs]
    rw [h1, splitSepL_append,
      splitSepL_joinParts ps hps (fun p hp => ((ordinaryName_iff p).mp (hord p hp)).2.2.2),
      splitSepL_no_sep '/' n.data hn4]
    simp only [List.map_cons, List.map_append, List.map_map, mk_comp_data_eq_id,
      List.map_id]
    rfl
  unfold pathClean cleanParts
  rw [habs, hsplit]
  have hstack : cleanStack true [] ("" :: (ps ++ [n])) = (ps ++ [n]).reverse := by
    unfold cleanStack
    rw [if_pos (by simp)]
    rw [cleanStack_pushes true (ps ++ [n]) []]
    · simp
    · intro p hp
      rcases List.mem_append.mp hp with hp | hp
      · have := (ordinaryName_iff p).mp (hord p hp)
        exact ⟨this.1, this.2.1, this.2.2.1⟩
      · rcases List.mem_singleton.mp hp with rfl
        exact ⟨hn1, hn2, hn3⟩
  rw [hstack, List.reverse_reverse]
  unfold renderParts
  rw [if_pos rfl, joinParts_append_single ps n hps]
  apply String.ext
  simp [String.data_append, hd]

/-! ## Candidate names of the probing loop -/

theorem candName_data_pos (base : String) (k : Nat) (hk : k ≠ 0) :
    (candName base k).data = base.data ++ '_' :: (decRepr k).data := by
  unfold candName
  rw [if_neg hk]
  simp [String.data_append]

theorem decRepr_data_ne_nil (k : Nat) : (decRepr k).data ≠ [] :=
  decReprAux_ne_nil (k + 1) k (by omega)

theorem candName_ordinary (base : String) (hb : ordinaryName base = true) (k : Nat) :
    ordinaryName (candName base k) = true := by
  rcases Nat.eq_zero_or_pos k with rfl | hk
  · exact hb
  obtain ⟨hb1, _, _, hb4⟩ := (ordinaryName_iff base).mp hb
  have hdata := candName_data_pos base k (by omega)
  have hblen : 1 ≤ base.data.length := by
    rcases hbd : base.data with _ | _
    · exact absurd (String.ext hbd) hb1
    · simp
  have hrlen : 1 ≤ (decRepr k).data.length := by
    rcases hrd : (decRepr k).data with _ | _
    · exact absurd hrd (decRepr_data_ne_nil k)
    · simp
  have hlen : 3 ≤ (candName base k).data.length := by
    rw [hdata]
    simp only [List.length_append, List.length_cons]
    omega
  rw [ordinaryName_iff]
  refine ⟨?_, ?_, ?_, ?_⟩
  · intro he
    rw [he] at hlen
    simp at hlen
  · intro he
    rw [he] at hlen
    simp at hlen
  · intro he
    rw [he] at hlen
    simp at hlen
  · intro hmem
    rw [hdata] at hmem
    rcases List.mem_append.mp hmem with hm | hm
    · exact hb4 hm
    · rcases List.mem_cons.mp hm with he | hm
      · exact absurd he (by decide)
      · exact decRepr_no_slash k '/' hm rfl

theorem candName_injective (base : String) (hb : ordinaryName base = true)
    (j k : Nat) (h : candName base j = candName base k) : j = k := by
  have hb1 := ((ordinaryName_iff base).mp hb).1
  have hd := congrArg String.data h
  rcases Nat.eq_zero_or_pos j with rfl | hj <;> rcases Nat.eq_zero_or_pos k with rfl | hk
  · rfl
  · have h0 : candName base 0 = base := rfl
    rw [h0, candName_data_pos base k (by omega)] at hd
    have hlen := congrArg List.length hd
    simp only [List.length_append, List.length_cons] at hlen
    omega
  · have h0 : candName base 0 = base := rfl
    rw [h0, candName_data_pos base j (by omega)] at hd
    have hlen := congrArg List.length hd
    simp only [List.length_append, List.length_cons] at hlen
    omega
  · rw [candName_data_pos base j (by omega), candName_data_pos base k (by omega)] at hd
    have h2 := List.append_cancel_left hd
    have h3 : (decRepr j).data = (decRepr k).data := by
      injection h2
    exact decRepr_injective j k (String.ext h3)

theorem candName_extends_base (base : String) (k : Nat) :
    goHasPrefix (candName base k) base = true := by
  unfold goHasPrefix
  rw [List.isPrefixOf_iff_prefix]
  rcases Nat.eq_zero_or_pos k with rfl | hk
  · exact List.prefix_refl _
  · rw [candName_data_pos base k (by omega)]
    exact List.prefix_append _ _

/-! ## `filepath.Base` of a joined path -/

theorem takeWhile_append_stop (p : Char → Bool) (A : List Char) (x : Char)
    (B : List Char) (hA : ∀ a ∈ A, p a = true) (hx : p x = false) :
    (A ++ x :: B).takeWhile p = A := by
  induction A with
  | nil => simp [List.takeWhile_cons, hx]
  | cons a as ih =>
    rw [List.cons_append, List.takeWhile_cons, hA a (by simp), if_pos rfl,
      ih (fun b hb => hA b (List.mem_cons_of_mem a hb))]

theorem pathBase_concat (x n : String) (hn : ordinaryName n = true) :
    pathBase (x ++ "/" ++ n) = n := by
  obtain ⟨hn1, _, _, hn4⟩ := (ordinaryName_iff n).mp hn
  have hdata : (x ++ "/" ++ n).data = x.data ++ '/' :: n.data := by
    simp [String.data_append]
  have hne : x ++ "/" ++ n ≠ "" := by
    intro he
    have := congrArg String.data he
    rw [hdata] at this
    simp at this
  unfold pathBase
  rw [if_neg hne]
  rcases hrev : n.data.reverse with _ | ⟨c, cs⟩
  · exact absurd (by rw [← List.reverse_reverse n.data, hrev]; rfl : n.data = [])
      (fun hh => hn1 (String.ext hh))
  have hcmem : c ∈ n.data := by
    rw [← List.mem_reverse, hrev]
    simp
  have hcne : c ≠ '/' := fun he => hn4 (he ▸ hcmem)
  have hrev2 : (x ++ "/" ++ n).data.reverse = c :: (cs ++ '/' :: x.data.reverse) := by
    rw [hdata]
    simp only [List.reverse_append, List.reverse_cons]
    rw [hrev]
    simp
  rw [hrev2]
  rw [List.dropWhile_cons]
  simp only [decide_eq_true_eq, hcne, ite_false, reduceIte]
  have htake : ((c :: (cs ++ '/' :: x.data.reverse)).takeWhile (· ≠ '/')) =
      c :: cs := by
    have := takeWhile_append_stop (fun a => decide (a ≠ '/')) (c :: cs) '/'
      x.data.reverse ?_ (by simp)
    · simpa using this
    · intro a ha
      have : a ∈ n.data := by
        rw [← List.reverse_reverse n.data, hrev]
        simp only [List.reverse_cons, List.mem_append, List.mem_reverse]
        rcases List.mem_cons.mp ha with rfl | ha
        · right; simp
        · left; simpa using ha
      simp only [decide_eq_true_eq]
      exact fun he => hn4 (he ▸ this)
  rw [if_neg (by simp)]
  simp only [htake]
  apply String.ext
  show (c :: cs).reverse = n.data
  rw [← hrev, List.reverse_reverse]

/-! ## The collision-probing loop -/

theorem probeLoop_spec (occ : String → Bool) (base : String) (fuel : Nat) :
    ∀ i n, probeLoop occ base fuel (candName base i) (i + 1) = some n →
      ∃ k, i ≤ k ∧ k < i + fuel ∧ n = candName base k ∧
        occ (candName base k) = false ∧
        ∀ j, i ≤ j → j < k → occ (candName base j) = true := by
  induction fuel with
  | zero => intro i n h; simp [probeLoop] at h
  | succ fuel ih =>
    intro i n h
    unfold probeLoop at h
    rcases hocc : occ (candName base i) with _ | _
    · rw [hocc] at h
      simp only [Bool.not_false, if_pos, Option.some.injEq] at h
      exact ⟨i, le_refl i, by omega, h.symm, hocc, fun j hj1 hj2 => by omega⟩
    · rw [hocc] at h
      simp only [Bool.not_true] at h
      rw [if_neg (by simp)] at h
      have hcand : base ++ "_" ++ decRepr (i + 1) = candName base (i + 1) := by
        unfold candName
        rw [if_neg (by omega)]
      rw [hcand] at h
      obtain ⟨k, hk1, hk2, hk3, hk4, hk5⟩ := ih (i + 1) n h
      refine ⟨k, by omega, by omega, hk3, hk4, fun j hj1 hj2 => ?_⟩
      rcases Nat.eq_or_lt_of_le hj1 with rfl | hj
      · exact hocc
      · exact hk5 j (by omega) hj2

theorem probeLoop_none_all_occupied (occ : String → Bool) (base : String)
    (fuel : Nat) :
    ∀ i, probeLoop occ base fuel (candName base i) (i + 1) = none →
      ∀ j, i ≤ j → j < i + fuel → occ (candName base j) = true := by
  induction fuel with
  | zero => intro i h j hj1 hj2; omega
  | succ fuel ih =>
    intro i h j hj1 hj2
    unfold probeLoop at h
    rcases hocc : occ (candName base i) with _ | _
    · rw [hocc] at h
      simp at h
    · rw [hocc] at h
      simp only [Bool.not_true] at h
      rw [if_neg (by simp)] at h
      have hcand : base ++ "_" ++ decRepr (i + 1) = candName base (i + 1) := by
        unfold candName
        rw [if_neg (by omega)]
      rw [hcand] at h
      rcases Nat.eq_or_lt_of_le hj1 with rfl | hj
      · exact hocc
      · exact ih (i + 1) h j (by omega) (by omega)

theorem nodup_subset_length {α : Type} [DecidableEq α] (l₁ l₂ : List α)
    (h : l₁.Nodup) (hs : l₁ ⊆ l₂) : l₁.length ≤ l₂.length := by
  have h1 : l₁.toFinset.card = l₁.length := List.toFinset_card_of_nodup h
  have h2 : l₁.toFinset ⊆ l₂.toFinset := by
    intro a ha
    simp only [List.mem_toFinset] at *
    exact hs ha
  calc l₁.length = l₁.toFinset.card := h1.symm
    _ ≤ l₂.toFinset.card := Finset.card_le_card h2
    _ ≤ l₂.length := List.toFinset_card_le l₂

theorem fsStatExists_mem (fs : FS) (p : String) (h : fsStatExists fs p = true) :
    p ∈ fs.files.map Prod.fst ++ fs.dirs := by
  unfold fsStatExists at h
  rcases Bool.or_eq_true _ _ |>.mp h with h | h
  · unfold fsFind at h
    rw [Option.isSome_map'] at h
    rw [List.find?_isSome] at h
    obtain ⟨e, he, hbeq⟩ := h
    rw [List.mem_append, List.mem_map]
    exact Or.inl ⟨e, he, eq_of_beq hbeq⟩
  · rw [List.contains_iff_exists_mem_beq] at h
    obtain ⟨a, ha, hbeq⟩ := h
    rw [List.mem_append]
    exact Or.inr ((eq_of_beq hbeq) ▸ ha)

/-- With the fuel `MoveToTrash` supplies, the probing loop always finds a
free name: the candidate paths are pairwise distinct, so at most
`files + dirs` of them can be occupied. -/
theorem probeLoop_total (fs1 : FS) (d base : String)
    (hb : ordinaryName base = true)
    (hd : ∀ n, ordinaryName n = true → pathJoin d n = d ++ "/" ++ n) :
    ∃ nm, probeLoop (fun n => fsStatExists fs1 (pathJoin d n)) base
      (fs1.files.length + fs1.dirs.length + 1) base 1 = some nm := by
  rcases hp : probeLoop (fun n => fsStatExists fs1 (pathJoin d n)) base
      (fs1.files.length + fs1.dirs.length + 1) base 1 with _ | nm
  · exfalso
    set N := fs1.files.length + fs1.dirs.length with hN
    have h0 : candName base 0 = base := rfl
    have hp0 : probeLoop (fun n => fsStatExists fs1 (pathJoin d n)) base
        (N + 1) (candName base 0) (0 + 1) = none := by
      rw [h0]
      exact hp
    have hall := probeLoop_none_all_occupied _ base (N + 1) 0 hp0
    have hinj : Function.Injective (fun k => d ++ "/" ++ candName base k) := by
      intro j k hjk
      have hdat := congrArg String.data hjk
      simp only [String.data_append, List.append_assoc] at hdat
      have h2 := List.append_cancel_left hdat
      have h3 := List.append_cancel_left h2
      exact candName_injective base hb j k (String.ext h3)
    have hnodup : ((List.range (N + 1)).map
        (fun k => d ++ "/" ++ candName base k)).Nodup :=
      (List.nodup_range (N + 1)).map hinj
    have hsub : ((List.range (N + 1)).map (fun k => d ++ "/" ++ candName base k))
        ⊆ fs1.files.map Prod.fst ++ fs1.dirs := by
      intro p hp2
      rw [List.mem_map] at hp2
      obtain ⟨k, hk, rfl⟩ := hp2
      rw [List.mem_range] at hk
      have hocc := hall k (by omega) (by omega)
      rw [hd (candName base k) (candName_ordinary base hb k)] at hocc
      exact fsStatExists_mem fs1 _ hocc
    have hlen := nodup_subset_length _ _ hnodup hsub
    simp only [List.length_map, List.length_range, List.length_append,
      List.length_map] at hlen
    omega
  · exact ⟨nm, rfl⟩

theorem pathJoin_linuxTrashDir (n : String) (hn : ordinaryName n = true) :
    pathJoin linuxTrashDir n = linuxTrashDir ++ "/" ++ n :=
  pathJoin_parts linuxTrashDir n ["home", "u", ".local", "share", "Trash", "files"]
    (by decide) (by simp) (by decide) hn

theorem pathJoin_linuxInfoDir (n : String) (hn : ordinaryName n = true) :
    pathJoin linuxInfoDir n = linuxInfoDir ++ "/" ++ n :=
  pathJoin_parts linuxInfoDir n ["home", "u", ".local", "share", "Trash", "info"]
    (by decide) (by simp) (by decide) hn

theorem pathJoin_macTrashDir (n : String) (hn : ordinaryName n = true) :
    pathJoin macTrashDir n = macTrashDir ++ "/" ++ n :=
  pathJoin_parts macTrashDir n ["home", "u", ".Trash"]
    (by decide) (by simp) (by decide) hn

/-- The probing loop, run with the fuel and occupancy `MoveToTrash` uses,
returns the first free candidate. -/
theorem probe_firstFree (fs1 : FS) (d base : String)
    (hb : ordinaryName base = true)
    (hd : ∀ n, ordinaryName n = true → pathJoin d n = d ++ "/" ++ n) :
    ∃ k, probeLoop (fun n => fsStatExists fs1 (pathJoin d n)) base
        (fs1.files.length + fs1.dirs.length + 1) base 1 =
          some (candName base k) ∧
      fsStatExists fs1 (pathJoin d (candName base k)) = false ∧
      (∀ j, j < k → fsStatExists fs1 (pathJoin d (candName base j)) = true) ∧
      goHasPrefix (candName base k) base = true := by
  obtain ⟨nm, hnm⟩ := probeLoop_total fs1 d base hb hd
  have h0 : candName base 0 = base := rfl
  have hnm0 : probeLoop (fun n => fsStatExists fs1 (pathJoin d n)) base
      (fs1.files.length + fs1.dirs.length + 1) (candName base 0) (0 + 1) =
        some nm := by
    rw [h0]
    exact hnm
  obtain ⟨k, _, _, rfl, hfree, hocc⟩ :=
    probeLoop_spec (fun n => fsStatExists fs1 (pathJoin d n)) base
      (fs1.files.length + fs1.dirs.length + 1) 0 nm hnm0
  refine ⟨k, ?_, hfree, fun j hj => hocc j (by omega) hj,
    candName_extends_base base k⟩
  rw [← h0]
  exact hnm0

/-- **C4**: `MoveToTrash` (Linux and macOS variants) chooses the trashed
name by deterministic sequential probing: the first free candidate among
`basename(P)`, `basename(P)_1`, `basename(P)_2`, …; the chosen name is
free in the trash root (never overwriting an existing trashed entry), all
earlier candidates are occupied, and the chosen name extends
`basename(P)`.  Stated for every path whose base name is an ordinary
directory-entry name (the base name of any real file). -/
theorem moveToTrash_sequential_probing (ts path : String) (fs : FS)
    (hb : ordinaryName (pathBase path) = true) :
    (∃ k,
      probeLoop (fun n => fsStatExists
          (fsMkdirAll (fsMkdirAll fs linuxTrashDir) linuxInfoDir)
          (pathJoin linuxTrashDir n)) (pathBase path)
        ((fsMkdirAll (fsMkdirAll fs linuxTrashDir) linuxInfoDir).files.length +
          (fsMkdirAll (fsMkdirAll fs linuxTrashDir) linuxInfoDir).dirs.length + 1)
        (pathBase path) 1 = some (candName (pathBase path) k) ∧
      fsStatExists (fsMkdirAll (fsMkdirAll fs linuxTrashDir) linuxInfoDir)
        (pathJoin linuxTrashDir (candName (pathBase path) k)) = false ∧
      (∀ j, j < k → fsStatExists
        (fsMkdirAll (fsMkdirAll fs linuxTrashDir) linuxInfoDir)
        (pathJoin linuxTrashDir (candName (pathBase path) j)) = true) ∧
      goHasPrefix (candName (pathBase path) k) (pathBase path) = true ∧
      ∀ fs' name, linuxMoveToTrash ts path fs = .ok (fs', name) →
        name = candName (pathBase path) k) ∧
    (∃ k,
      probeLoop (fun n => fsStatExists (fsMkdirAll fs macTrashDir)
          (pathJoin macTrashDir n)) (pathBase path)
        ((fsMkdirAll fs macTrashDir).files.length +
          (fsMkdirAll fs macTrashDir).dirs.length + 1)
        (pathBase path) 1 = some (candName (pathBase path) k) ∧
      fsStatExists (fsMkdirAll fs macTrashDir)
        (pathJoin macTrashDir (candName (pathBase path) k)) = false ∧
      (∀ j, j < k → fsStatExists (fsMkdirAll fs macTrashDir)
        (pathJoin macTrashDir (candName (pathBase path) j)) = true) ∧
      goHasPrefix (candName (pathBase path) k) (pathBase path) = true ∧
      ∀ fs' name, macMoveToTrash path fs = .ok (fs', name) →
        name = candName (pathBase path) k) := by
  constructor
  · obtain ⟨k, hk1, hk2, hk3, hk4⟩ := probe_firstFree
      (fsMkdirAll (fsMkdirAll fs linuxTrashDir) linuxInfoDir) linuxTrashDir
      (pathBase path) hb pathJoin_linuxTrashDir
    refine ⟨k, hk1, hk2, hk3, hk4, ?_⟩
    intro fs' name hok
    unfold linuxMoveToTrash at hok
    simp only [hk1] at hok
    rcases hren : fsRename (fsMkdirAll (fsMkdirAll fs linuxTrashDir) linuxInfoDir)
        path (pathJoin linuxTrashDir (candName (pathBase path) k)) with _ | fs2
    · simp [hren] at hok
    · simp only [hren, Except.ok.injEq, Prod.mk.injEq] at hok
      exact hok.2.symm
  · obtain ⟨k, hk1, hk2, hk3, hk4⟩ := probe_firstFree
      (fsMkdirAll fs macTrashDir) macTrashDir (pathBase path) hb
      pathJoin_macTrashDir
    refine ⟨k, hk1, hk2, hk3, hk4, ?_⟩
    intro fs' name hok
    unfold macMoveToTrash at hok
    simp only [hk1] at hok
    rcases hren : fsRename (fsMkdirAll fs macTrashDir) path
        (pathJoin macTrashDir (candName (pathBase path) k)) with _ | fs2
    · simp [hren] at hok
    · simp only [hren, Except.ok.injEq, Prod.mk.injEq] at hok
      exact hok.2.symm

/-- Witness for C4 at a concrete path and empty filesystem. -/
theorem moveToTrash_sequential_probing_witness :
    (∃ k,
      probeLoop (fun n => fsStatExists
          (fsMkdirAll (fsMkdirAll (⟨[], []⟩ : FS) linuxTrashDir) linuxInfoDir)
          (pathJoin linuxTrashDir n)) (pathBase "/home/u/f.txt")
        ((fsMkdirAll (fsMkdirAll (⟨[], []⟩ : FS) linuxTrashDir)
            linuxInfoDir).files.length +
          (fsMkdirAll (fsMkdirAll (⟨[], []⟩ : FS) linuxTrashDir)
            linuxInfoDir).dirs.length + 1)
        (pathBase "/home/u/f.txt") 1 =
          some (candName (pathBase "/home/u/f.txt") k) ∧
      fsStatExists (fsMkdirAll (fsMkdirAll (⟨[], []⟩ : FS) linuxTrashDir)
          linuxInfoDir)
        (pathJoin linuxTrashDir (candName (pathBase "/home/u/f.txt") k)) = false ∧
      (∀ j, j < k → fsStatExists
        (fsMkdirAll (fsMkdirAll (⟨[], []⟩ : FS) linuxTrashDir) linuxInfoDir)
        (pathJoin linuxTrashDir (candName (pathBase "/home/u/f.txt") j)) = true) ∧
      goHasPrefix (candName (pathBase "/home/u/f.txt") k)
        (pathBase "/home/u/f.txt") = true ∧
      ∀ fs' name, linuxMoveToTrash "T" "/home/u/f.txt" (⟨[], []⟩ : FS) =
          .ok (fs', name) →
        name = candName (pathBase "/home/u/f.txt") k) ∧
    (∃ k,
      probeLoop (fun n => fsStatExists (fsMkdirAll (⟨[], []⟩ : FS) macTrashDir)
          (pathJoin macTrashDir n)) (pathBase "/home/u/f.txt")
        ((fsMkdirAll (⟨[], []⟩ : FS) macTrashDir).files.length +
          (fsMkdirAll (⟨[], []⟩ : FS) macTrashDir).dirs.length + 1)
        (pathBase "/home/u/f.txt") 1 =
          some (candName (pathBase "/home/u/f.txt") k) ∧
      fsStatExists (fsMkdirAll (⟨[], []⟩ : FS) macTrashDir)
        (pathJoin macTrashDir (candName (pathBase "/home/u/f.txt") k)) = false ∧
      (∀ j, j < k → fsStatExists (fsMkdirAll (⟨[], []⟩ : FS) macTrashDir)
        (pathJoin macTrashDir (candName (pathBase "/home/u/f.txt") j)) = true) ∧
      goHasPrefix (candName (pathBase "/home/u/f.txt") k)
        (pathBase "/home/u/f.txt") = true ∧
      ∀ fs' name, macMoveToTrash "/home/u/f.txt" (⟨[], []⟩ : FS) =
          .ok (fs', name) →
        name = candName (pathBase "/home/u/f.txt") k) :=
  moveToTrash_sequential_probing "T" "/home/u/f.txt" ⟨[], []⟩ (by decide)

/-! ## Further filesystem and string lemmas for the restore round trip -/

theorem fsFind_mkdirAll (fs : FS) (p q : String) :
    fsFind (fsMkdirAll fs p) q = fsFind fs q := rfl

theorem fsFind_remove_self (fs : FS) (p : String) :
    fsFind (fsRemoveFile fs p) p = none := by
  unfold fsFind fsRemoveFile
  simp only
  rw [List.find?_eq_none.mpr]
  · rfl
  · intro e he
    have := List.of_mem_filter he
    simpa using this

theorem fsFind_remove_other (fs : FS) (p q : String) (h : q ≠ p) :
    fsFind (fsRemoveFile fs p) q = fsFind fs q := by
  unfold fsFind fsRemoveFile
  simp only
  congr 1
  induction fs.files with
  | nil => rfl
  | cons e es ih =>
    simp only [List.filter]
    by_cases he : e.1 = p
    · rw [beq_iff_eq.mpr he]
      simp only [Bool.not_true]
      rw [List.find?]
      have hq : (e.1 == q) = false :=
        beq_eq_false_iff_ne.mpr (by rw [he]; exact Ne.symm h)
      rw [hq]
      simp only [Bool.false_eq_true, reduceIte]
      exact ih
    · rw [beq_eq_false_iff_ne.mpr he]
      simp only [Bool.not_false]
      rw [List.find?, List.find?]
      by_cases hq : (e.1 == q) = true
      · rw [hq]
      · rw [Bool.eq_false_iff.mpr hq]
        simp only [Bool.false_eq_true, reduceIte]
        exact ih

theorem goHasPrefix_append (p x : String) : goHasPrefix (p ++ x) p = true := by
  unfold goHasPrefix
  rw [List.isPrefixOf_iff_prefix, String.data_append]
  exact List.prefix_append _ _

theorem goTrimPrefix_append (p x : String) : goTrimPrefix (p ++ x) p = x := by
  unfold goTrimPrefix
  rw [if_pos]
  · apply String.ext
    simp [String.data_append]
  · rw [List.isPrefixOf_iff_prefix, String.data_append]
    exact List.prefix_append _ _

theorem ordinary_append_trashinfo (a : String) (ha : ordinaryName a = true) :
    ordinaryName (a ++ ".trashinfo") = true := by
  obtain ⟨ha1, _, _, ha4⟩ := (ordinaryName_iff a).mp ha
  have hdata : (a ++ ".trashinfo").data = a.data ++ ".trashinfo".data :=
    String.data_append a ".trashinfo"
  have hlen : 10 ≤ (a ++ ".trashinfo").data.length := by
    rw [hdata]
    simp
  rw [ordinaryName_iff]
  refine ⟨?_, ?_, ?_, ?_⟩
  · intro he; rw [he] at hlen; simp at hlen
  · intro he; rw [he] at hlen; simp at hlen
  · intro he; rw [he] at hlen; simp at hlen
  · intro hmem
    rw [hdata] at hmem
    rcases List.mem_append.mp hmem with hm | hm
    · exact ha4 hm
    · have : '/' ∈ ".trashinfo".data := hm
      simp at this

theorem candName_len_ge (base : String) (k : Nat) :
    base.data.length ≤ (candName base k).data.length := by
  rcases Nat.eq_zero_or_pos k with rfl | hk
  · exact le_refl _
  · rw [candName_data_pos base k (by omega)]
    simp

/-- The newline-separated lines of a `.trashinfo` record, when the
original path has no newline, start with the header and the `Path=`
line. -/
theorem trashinfo_lines (path ts : String) (hnl : '\n' ∉ path.data) :
    goSplitOnChar '\n'
        ("[Trash Info]\nPath=" ++ path ++ "\nDeletionDate=" ++ ts ++ "\n") =
      "[Trash Info]" :: ("Path=" ++ path) ::
        goSplitOnChar '\n' ("DeletionDate=" ++ ts ++ "\n") := by
  have hdata : ("[Trash Info]\nPath=" ++ path ++ "\nDeletionDate=" ++ ts ++ "\n").data
      = "[Trash Info]".data ++ '\n' ::
        (("Path=" ++ path).data ++ '\n' :: ("DeletionDate=" ++ ts ++ "\n").data) := by
    simp [String.data_append]
  unfold goSplitOnChar
  rw [hdata, splitSepL_append, splitSepL_append]
  rw [splitSepL_no_sep '\n' "[Trash Info]".data (by decide)]
  rw [splitSepL_no_sep '\n' ("Path=" ++ path).data ?hp]
  case hp =>
    rw [String.data_append]
    intro hmem
    rcases List.mem_append.mp hmem with hm | hm
    · have : '\n' ∈ "Path=".data := hm
      simp at this
    · exact hnl hm
  rfl

/-- Successful `linuxSoftDeleter.MoveToTrash` runs decompose into: a
probed candidate name, the original content, the rename, and the
metadata write. -/
theorem linuxMoveToTrash_ok_shape (ts path : String) (fs fs' : FS) (name : String)
    (hmv : linuxMoveToTrash ts path fs = .ok (fs', name)) :
    ∃ c k,
      name = candName (pathBase path) k ∧
      fsFind fs path = some c ∧
      fsStatExists (fsMkdirAll (fsMkdirAll fs linuxTrashDir) linuxInfoDir)
        (pathJoin linuxTrashDir name) = false ∧
      fs' = fsWriteFile
        (fsWriteFile
          (fsRemoveFile (fsMkdirAll (fsMkdirAll fs linuxTrashDir) linuxInfoDir)
            path)
          (pathJoin linuxTrashDir name) c)
        (pathJoin linuxInfoDir (name ++ ".trashinfo"))
        ("[Trash Info]\nPath=" ++ path ++ "\nDeletionDate=" ++ ts ++ "\n") := by
  unfold linuxMoveToTrash at hmv
  rcases hpr : probeLoop (fun n => fsStatExists
      (fsMkdirAll (fsMkdirAll fs linuxTrashDir) linuxInfoDir)
      (pathJoin linuxTrashDir n)) (pathBase path)
      ((fsMkdirAll (fsMkdirAll fs linuxTrashDir) linuxInfoDir).files.length +
        (fsMkdirAll (fsMkdirAll fs linuxTrashDir) linuxInfoDir).dirs.length + 1)
      (pathBase path) 1 with _ | fileName
  · simp [hpr] at hmv
  have h0 : candName (pathBase path) 0 = pathBase path := rfl
  have hpr0 : probeLoop (fun n => fsStatExists
      (fsMkdirAll (fsMkdirAll fs linuxTrashDir) linuxInfoDir)
      (pathJoin linuxTrashDir n)) (pathBase path)
      ((fsMkdirAll (fsMkdirAll fs linuxTrashDir) linuxInfoDir).files.length +
        (fsMkdirAll (fsMkdirAll fs linuxTrashDir) linuxInfoDir).dirs.length + 1)
      (candName (pathBase path) 0) (0 + 1) = some fileName := by
    rw [h0]
    exact hpr
  obtain ⟨k, _, _, hfn, hfree, _⟩ := probeLoop_spec _ _ _ 0 fileName hpr0
  simp only [hpr] at hmv
  rcases hren : fsRename (fsMkdirAll (fsMkdirAll fs linuxTrashDir) linuxInfoDir)
      path (pathJoin linuxTrashDir fileName) with _ | fs2
  · simp [hren] at hmv
  simp only [hren] at hmv
  unfold fsRename at hren
  rcases hfind : fsFind (fsMkdirAll (fsMkdirAll fs linuxTrashDir) linuxInfoDir)
      path with _ | c
  · rw [hfind] at hren
    exact Option.noConfusion hren
  rw [hfind] at hren
  simp only [Option.some.injEq] at hren
  simp only [Except.ok.injEq, Prod.mk.injEq] at hmv
  refine ⟨c, k, ?_, ?_, ?_, ?_⟩
  · rw [← hmv.2]
    exact hfn
  · exact hfind
  · rw [← hmv.2, hfn]
    exact hfree
  · rw [← hmv.2, hren, ← hmv.1]

/-- **C6**: a successful `MoveToTrash(path)` on the metadata-tracking
variant writes exactly one metadata record, named
`<trashedName>.trashinfo` inside the info directory, with content
`[Trash Info]\nPath=<original-path>\nDeletionDate=<timestamp>\n`; every
path other than the record, the moved file's source, and its trash
destination is untouched. -/
theorem moveToTrash_writes_one_trashinfo (ts path : String) (fs : FS)
    (hb : ordinaryName (pathBase path) = true)
    (fs' : FS) (name : String)
    (hmv : linuxMoveToTrash ts path fs = .ok (fs', name)) :
    fsFind fs' (pathJoin linuxInfoDir (name ++ ".trashinfo")) =
      some ("[Trash Info]\nPath=" ++ path ++ "\nDeletionDate=" ++ ts ++ "\n") ∧
    underDir linuxInfoDir (pathJoin linuxInfoDir (name ++ ".trashinfo")) = true ∧
    ∀ q, q ≠ pathJoin linuxInfoDir (name ++ ".trashinfo") →
      q ≠ path → q ≠ pathJoin linuxTrashDir name →
      fsFind fs' q = fsFind fs q := by
  obtain ⟨c, k, hname, hfc, hfree, hfs'⟩ :=
    linuxMoveToTrash_ok_shape ts path fs fs' name hmv
  have hno : ordinaryName name = true := by
    rw [hname]
    exact candName_ordinary _ hb k
  have hio : ordinaryName (name ++ ".trashinfo") = true :=
    ordinary_append_trashinfo name hno
  refine ⟨?_, ?_, ?_⟩
  · rw [hfs']
    exact fsFind_write_self _ _ _
  · rw [pathJoin_linuxInfoDir _ hio]
    unfold underDir
    rw [List.isPrefixOf_iff_prefix]
    have : (linuxInfoDir ++ "/" ++ (name ++ ".trashinfo")).data =
        (linuxInfoDir ++ "/").data ++ (name ++ ".trashinfo").data := by
      simp [String.data_append]
    rw [this]
    exact List.prefix_append _ _
  · intro q hq1 hq2 hq3
    rw [hfs', fsFind_write_other _ _ _ _ hq1, fsFind_write_other _ _ _ _ hq3,
      fsFind_remove_other _ _ _ hq2, fsFind_mkdirAll, fsFind_mkdirAll]

/-- **C5 (amended)**: on the metadata-tracking variant, for every file
whose base name is an ordinary directory-entry name and whose path
contains no newline, a successful `MoveToTrash` followed by
`RestoreFromTrash` of the trashed name places the file back at its exact
original path with its original content, and the `.trashinfo` record no
longer exists afterward. -/
theorem moveToTrash_restore_roundtrip (ts path : String) (fs : FS)
    (hb : ordinaryName (pathBase path) = true)
    (hnl : '\n' ∉ path.data) (hne : path ≠ "")
    (fs' : FS) (name : String)
    (hmv : linuxMoveToTrash ts path fs = .ok (fs', name)) :
    ∃ fs'', linuxRestoreFromTrash name fs' = .ok fs'' ∧
      (∃ c, fsFind fs path = some c ∧ fsFind fs'' path = some c) ∧
      fsFind fs'' (pathJoin linuxInfoDir (name ++ ".trashinfo")) = none := by
  obtain ⟨c, k, hname, hfc, hfree, hfs'⟩ :=
    linuxMoveToTrash_ok_shape ts path fs fs' name hmv
  have hno : ordinaryName name = true := by
    rw [hname]
    exact candName_ordinary _ hb k
  have hio := ordinary_append_trashinfo name hno
  have hdest := pathJoin_linuxTrashDir name hno
  have hinfo := pathJoin_linuxInfoDir _ hio
  have hdi : pathJoin linuxTrashDir name ≠
      pathJoin linuxInfoDir (name ++ ".trashinfo") := by
    rw [hdest, hinfo,
      (by decide : linuxTrashDir = "/home/u/.local/share/Trash/files"),
      (by decide : linuxInfoDir = "/home/u/.local/share/Trash/info")]
    intro he
    have hd := congrArg String.data he
    simp only [String.data_append] at hd
    have h27 := congrArg (fun l : List Char => l[27]?) hd
    simp only at h27
    rw [List.append_assoc, List.append_assoc] at h27
    rw [List.getElem?_append_left (by decide),
      List.getElem?_append_left (by decide)] at h27
    simp at h27
  have hpi : path ≠ pathJoin linuxInfoDir (name ++ ".trashinfo") := by
    rw [hinfo]
    intro he
    have hbase2 : pathBase path = name ++ ".trashinfo" := by
      rw [he]
      exact pathBase_concat _ _ hio
    have hlen1 := candName_len_ge (pathBase path) k
    have hd2 := congrArg (fun s : String => s.data.length) hbase2
    simp only [String.data_append, List.length_append] at hd2
    rw [hname] at hd2
    have h10 : ".trashinfo".data.length = 10 := by decide
    rw [h10] at hd2
    omega
  have hfind_info : fsFind fs' (pathJoin linuxInfoDir (name ++ ".trashinfo")) =
      some ("[Trash Info]\nPath=" ++ path ++ "\nDeletionDate=" ++ ts ++ "\n") := by
    rw [hfs']
    exact fsFind_write_self _ _ _
  have hfind_dest : fsFind fs' (pathJoin linuxTrashDir name) = some c := by
    rw [hfs', fsFind_write_other _ _ _ _ hdi]
    exact fsFind_write_self _ _ _
  have hren2 : fsRename fs' (pathJoin linuxTrashDir name) path =
      some (fsWriteFile (fsRemoveFile fs' (pathJoin linuxTrashDir name)) path c) := by
    unfold fsRename
    rw [hfind_dest]
  have hfind2 : ("[Trash Info]" :: ("Path=" ++ path) ::
        goSplitOnChar '\n' ("DeletionDate=" ++ ts ++ "\n")).find?
        (fun l => goHasPrefix l "Path=") = some ("Path=" ++ path) := by
    rw [List.find?]
    rw [(by decide : goHasPrefix "[Trash Info]" "Path=" = false)]
    simp only [Bool.false_eq_true, reduceIte]
    rw [List.find?, goHasPrefix_append]
  have hres : linuxRestoreFromTrash name fs' =
      .ok (fsRemoveFile
        (fsWriteFile (fsRemoveFile fs' (pathJoin linuxTrashDir name)) path c)
        (pathJoin linuxInfoDir (name ++ ".trashinfo"))) := by
    unfold linuxRestoreFromTrash
    simp only [hfind_info]
    rw [trashinfo_lines path ts hnl]
    simp only [hfind2, goTrimPrefix_append]
    rw [if_neg hne]
    simp only [hren2]
  refine ⟨_, hres, ⟨c, hfc, ?_⟩, ?_⟩
  · rw [fsFind_remove_other _ _ _ hpi]
    exact fsFind_write_self _ _ _
  · exact fsFind_remove_self _ _

/-- Counterexample to C5 as stated: for the file `/a\nb` (a legal Linux
path containing a newline), `MoveToTrash` then `RestoreFromTrash` both
succeed, but the line-based metadata parse truncates the original path
at the newline, so the file is restored at `/a` — not at its exact
original path `/a\nb`, where nothing exists afterward. -/
theorem restore_newline_path_counterexample :
    ((linuxMoveToTrash "T" "/a\nb" ⟨[("/a\nb", "data")], []⟩).toOption.bind
      fun p => (linuxRestoreFromTrash p.2 p.1).toOption.map
        fun fs2 => (fsFind fs2 "/a\nb", fsFind fs2 "/a")) =
      some (none, some "data") := by
  rfl

/-- Witness for C5 (amended) at the concrete file `/home/u/f.txt`. -/
theorem moveToTrash_restore_roundtrip_witness :
    ∃ fs'', linuxRestoreFromTrash "f.txt"
        ⟨[("/home/u/.local/share/Trash/info/f.txt.trashinfo",
            "[Trash Info]\nPath=/home/u/f.txt\nDeletionDate=T\n"),
          ("/home/u/.local/share/Trash/files/f.txt", "data")],
         ["/home/u/.local/share/Trash/info",
          "/home/u/.local/share/Trash/files"]⟩ = .ok fs'' ∧
      (∃ c, fsFind ⟨[("/home/u/f.txt", "data")], []⟩ "/home/u/f.txt" = some c ∧
        fsFind fs'' "/home/u/f.txt" = some c) ∧
      fsFind fs'' (pathJoin linuxInfoDir ("f.txt" ++ ".trashinfo")) = none :=
  moveToTrash_restore_roundtrip "T" "/home/u/f.txt"
    ⟨[("/home/u/f.txt", "data")], []⟩ (by decide) (by decide) (by decide)
    ⟨[("/home/u/.local/share/Trash/info/f.txt.trashinfo",
        "[Trash Info]\nPath=/home/u/f.txt\nDeletionDate=T\n"),
      ("/home/u/.local/share/Trash/files/f.txt", "data")],
     ["/home/u/.local/share/Trash/info",
      "/home/u/.local/share/Trash/files"]⟩ "f.txt" (by rfl)

/-- Witness for C6 at the concrete file `/home/u/f.txt`. -/
theorem moveToTrash_writes_one_trashinfo_witness :
    fsFind ⟨[("/home/u/.local/share/Trash/info/f.txt.trashinfo",
          "[Trash Info]\nPath=/home/u/f.txt\nDeletionDate=T\n"),
        ("/home/u/.local/share/Trash/files/f.txt", "data")],
       ["/home/u/.local/share/Trash/info", "/home/u/.local/share/Trash/files"]⟩
      (pathJoin linuxInfoDir ("f.txt" ++ ".trashinfo")) =
      some ("[Trash Info]\nPath=" ++ "/home/u/f.txt" ++ "\nDeletionDate=" ++
        "T" ++ "\n") ∧
    underDir linuxInfoDir (pathJoin linuxInfoDir ("f.txt" ++ ".trashinfo")) =
      true ∧
    ∀ q, q ≠ pathJoin linuxInfoDir ("f.txt" ++ ".trashinfo") →
      q ≠ "/home/u/f.txt" → q ≠ pathJoin linuxTrashDir "f.txt" →
      fsFind ⟨[("/home/u/.local/share/Trash/info/f.txt.trashinfo",
            "[Trash Info]\nPath=/home/u/f.txt\nDeletionDate=T\n"),
          ("/home/u/.local/share/Trash/files/f.txt", "data")],
         ["/home/u/.local/share/Trash/info",
          "/home/u/.local/share/Trash/files"]⟩ q =
        fsFind ⟨[("/home/u/f.txt", "data")], []⟩ q :=
  moveToTrash_writes_one_trashinfo "T" "/home/u/f.txt"
    ⟨[("/home/u/f.txt", "data")], []⟩ (by decide)
    ⟨[("/home/u/.local/share/Trash/info/f.txt.trashinfo",
        "[Trash Info]\nPath=/home/u/f.txt\nDeletionDate=T\n"),
      ("/home/u/.local/share/Trash/files/f.txt", "data")],
     ["/home/u/.local/share/Trash/info",
      "/home/u/.local/share/Trash/files"]⟩ "f.txt" (by rfl)

/-! ## EmptyTrash (claim C8): directory-entry and removal lemmas -/

theorem dropWhile_head_false {α : Type} (p : α → Bool) (l : List α) (c : α)
    (cs : List α) (h : l.dropWhile p = c :: cs) : p c = false := by
  induction l with
  | nil => simp at h
  | cons a as ih =>
    rw [List.dropWhile_cons] at h
    by_cases ha : p a = true
    · rw [if_pos ha] at h
      exact ih h
    · rw [if_neg ha] at h
      injection h with h1 _
      rw [← h1]
      exact Bool.eq_false_iff.mpr ha

theorem childNameOf_requires_under (d k : String)
    (h : (childNameOf d k).isSome = true) : underDir d k = true := by
  unfold childNameOf at h
  unfold underDir
  by_cases hpre : (d ++ "/").data.isPrefixOf k.data = true
  · exact hpre
  · rw [if_neg (by simpa using hpre)] at h
    simp at h

theorem childNameOf_some_cases (d k n : String) (h : childNameOf d k = some n) :
    ordinaryName n = true ∧
      (k = d ++ "/" ++ n ∨ underDir (d ++ "/" ++ n) k = true) := by
  unfold childNameOf at h
  by_cases hpre : (d ++ "/").data.isPrefixOf k.data = true
  · rw [if_pos hpre] at h
    dsimp only at h
    set rest := k.data.drop (d ++ "/").data.length with hrest
    set m : String := ⟨rest.takeWhile (· ≠ '/')⟩ with hm
    by_cases hcond : (m = "" || m = "." || m = "..") = true
    · rw [if_pos hcond] at h
      exact Option.noConfusion h
    · rw [if_neg hcond] at h
      simp only [Option.some.injEq] at h
      subst h
      simp only [Bool.or_eq_true, decide_eq_true_eq, not_or] at hcond
      have hkdata : k.data = (d ++ "/").data ++ rest := by
        rw [List.isPrefixOf_iff_prefix] at hpre
        obtain ⟨t, ht⟩ := hpre
        rw [hrest, ← ht, List.drop_left]
      have hsplit2 : rest = rest.takeWhile (· ≠ '/') ++ rest.dropWhile (· ≠ '/') :=
        (List.takeWhile_append_dropWhile _ _).symm
      have hmdata : m.data = rest.takeWhile (· ≠ '/') := by
        rw [hm]
      have hord : ordinaryName m = true := by
        rw [ordinaryName_iff]
        refine ⟨hcond.1.1, hcond.1.2, hcond.2, ?_⟩
        intro hmem
        rw [hmdata] at hmem
        have := List.mem_takeWhile_imp hmem
        simp at this
      refine ⟨hord, ?_⟩
      rcases hdw : rest.dropWhile (· ≠ '/') with _ | ⟨c, cs⟩
      · left
        apply String.ext
        rw [hkdata, hsplit2, hdw, List.append_nil, ← hmdata]
        simp [String.data_append]
      · right
        have hc : c = '/' := by
          have := dropWhile_head_false _ rest c cs hdw
          simpa using this
        unfold underDir
        rw [List.isPrefixOf_iff_prefix]
        refine ⟨cs, ?_⟩
        rw [hkdata, hsplit2, hdw, hc, ← hmdata]
        simp [String.data_append]
  · rw [if_neg (by simpa using hpre)] at h
    exact Option.noConfusion h

theorem underDir_length (p k : String) (h : underDir p k = true) :
    p.data.length + 1 ≤ k.data.length := by
  unfold underDir at h
  rw [List.isPrefixOf_iff_prefix] at h
  have hle := h.length_le
  rw [String.data_append, List.length_append,
    (by decide : ("/" : String).data.length = 1)] at hle
  omega

theorem removeAll_files_subset (fs : FS) (p : String) (e : String × String)
    (h : e ∈ (fsRemoveAll fs p).files) :
    e ∈ fs.files ∧ e.1 ≠ p ∧ underDir p e.1 = false := by
  unfold fsRemoveAll at h
  simp only at h
  have h1 := List.of_mem_filter h
  have h2 := List.mem_of_mem_filter h
  simp only [Bool.and_eq_true, Bool.not_eq_true'] at h1
  refine ⟨h2, ?_, h1.2⟩
  intro he
  have hbeq : (e.1 == p) = true := beq_iff_eq.mpr he
  rw [hbeq] at h1
  exact Bool.noConfusion h1.1

theorem removeAll_dirs_subset (fs : FS) (p q : String)
    (h : q ∈ (fsRemoveAll fs p).dirs) :
    q ∈ fs.dirs ∧ q ≠ p ∧ underDir p q = false := by
  unfold fsRemoveAll at h
  simp only at h
  have h1 := List.of_mem_filter h
  have h2 := List.mem_of_mem_filter h
  simp only [Bool.and_eq_true, Bool.not_eq_true'] at h1
  refine ⟨h2, ?_, h1.2⟩
  intro he
  have hbeq : (q == p) = true := beq_iff_eq.mpr he
  rw [hbeq] at h1
  exact Bool.noConfusion h1.1

theorem mkdirAll_dirs_mem (fs : FS) (p q : String)
    (h : q ∈ (fsMkdirAll fs p).dirs) : q = p ∨ q ∈ fs.dirs := by
  unfold fsMkdirAll at h
  simp only at h
  by_cases hc : fs.dirs.contains p = true
  · rw [if_pos hc] at h
    exact Or.inr h
  · rw [if_neg hc] at h
    rcases List.mem_cons.mp h with rfl | h
    · exact Or.inl rfl
    · exact Or.inr h

theorem mkdirAll_contains_self (fs : FS) (p : String) :
    (fsMkdirAll fs p).dirs.contains p = true := by
  unfold fsMkdirAll
  simp only
  by_cases hc : fs.dirs.contains p = true
  · rw [if_pos hc]
    exact hc
  · rw [if_neg hc]
    simp [List.contains_iff_exists_mem_beq]

theorem mkdirAll_contains_mono (fs : FS) (p q : String)
    (h : fs.dirs.contains q = true) :
    (fsMkdirAll fs p).dirs.contains q = true := by
  unfold fsMkdirAll
  simp only
  by_cases hc : fs.dirs.contains p = true
  · rw [if_pos hc]
    exact h
  · rw [if_neg hc]
    rw [List.contains_iff_exists_mem_beq] at h ⊢
    obtain ⟨a, ha, hbeq⟩ := h
    exact ⟨a, List.mem_cons_of_mem p ha, hbeq⟩

theorem contains_iff_mem (l : List String) (s : String) :
    l.contains s = true ↔ s ∈ l := by
  rw [List.contains_iff_exists_mem_beq]
  constructor
  · rintro ⟨a, ha, hbeq⟩
    rw [eq_of_beq hbeq]
    exact ha
  · intro h
    exact ⟨s, h, beq_iff_eq.mpr rfl⟩

theorem entriesUnder_eq_nil (fs : FS) (d : String)
    (h : ∀ k ∈ fs.files.map Prod.fst ++ fs.dirs, childNameOf d k = none) :
    entriesUnder fs d = [] := by
  unfold entriesUnder
  rw [List.filterMap_eq_nil_iff.mpr h]
  rfl

theorem mem_entriesUnder (fs : FS) (d k n : String)
    (hk : k ∈ fs.files.map Prod.fst ++ fs.dirs)
    (hn : childNameOf d k = some n) : n ∈ entriesUnder fs d := by
  unfold entriesUnder
  rw [List.mem_dedup]
  exact List.mem_filterMap.mpr ⟨k, hk, hn⟩

theorem foldl_removeAll_files_subset (d : String) (l : List String) (s : FS)
    (e : String × String)
    (h : e ∈ (l.foldl (fun s n => fsRemoveAll s (pathJoin d n)) s).files) :
    e ∈ s.files := by
  induction l generalizing s with
  | nil => exact h
  | cons a l ih =>
    have := ih (fsRemoveAll s (pathJoin d a)) h
    exact (removeAll_files_subset _ _ _ this).1

theorem foldl_removeAll_dirs_subset (d : String) (l : List String) (s : FS)
    (q : String)
    (h : q ∈ (l.foldl (fun s n => fsRemoveAll s (pathJoin d n)) s).dirs) :
    q ∈ s.dirs := by
  induction l generalizing s with
  | nil => exact h
  | cons a l ih =>
    have := ih (fsRemoveAll s (pathJoin d a)) h
    exact (removeAll_dirs_subset _ _ _ this).1

theorem notMem_removeAll (s : FS) (p k : String)
    (hk : k = p ∨ underDir p k = true) :
    k ∉ (fsRemoveAll s p).files.map Prod.fst ∧ k ∉ (fsRemoveAll s p).dirs := by
  constructor
  · intro hmem
    rw [List.mem_map] at hmem
    obtain ⟨e, he, rfl⟩ := hmem
    obtain ⟨_, hne, hund⟩ := removeAll_files_subset s p e he
    rcases hk with rfl | hk
    · exact hne rfl
    · rw [hk] at hund
      exact Bool.noConfusion hund
  · intro hmem
    obtain ⟨_, hne, hund⟩ := removeAll_dirs_subset s p k hmem
    rcases hk with rfl | hk
    · exact hne rfl
    · rw [hk] at hund
      exact Bool.noConfusion hund

theorem foldl_removeAll_removes (d : String) (l : List String) (s : FS)
    (k n : String) (hn : n ∈ l)
    (hk : k = pathJoin d n ∨ underDir (pathJoin d n) k = true) :
    k ∉ (l.foldl (fun s n => fsRemoveAll s (pathJoin d n)) s).files.map Prod.fst ∧
    k ∉ (l.foldl (fun s n => fsRemoveAll s (pathJoin d n)) s).dirs := by
  induction l generalizing s with
  | nil => simp at hn
  | cons a l ih =>
    rcases List.mem_cons.mp hn with rfl | hn2
    · have hgone := notMem_removeAll s (pathJoin d n) k hk
      constructor
      · intro hmem
        rw [List.mem_map] at hmem
        obtain ⟨e, he, rfl⟩ := hmem
        exact hgone.1 (List.mem_map.mpr
          ⟨e, foldl_removeAll_files_subset d l _ e he, rfl⟩)
      · intro hmem
        exact hgone.2 (foldl_removeAll_dirs_subset d l _ _ hmem)
    · exact ih (fsRemoveAll s (pathJoin d a)) hn2

theorem foldl_removeAll_keeps_root (d : String) (l : List String) (s : FS)
    (hl : ∀ n ∈ l, ordinaryName n = true)
    (hd : ∀ n, ordinaryName n = true → pathJoin d n = d ++ "/" ++ n)
    (hmem : d ∈ s.dirs) :
    d ∈ (l.foldl (fun s n => fsRemoveAll s (pathJoin d n)) s).dirs := by
  induction l generalizing s with
  | nil => exact hmem
  | cons a l ih =>
    refine ih (fsRemoveAll s (pathJoin d a))
      (fun n hn => hl n (List.mem_cons_of_mem a hn)) ?_
    have ha := hl a (by simp)
    have hlen : d.data.length + 2 ≤ (pathJoin d a).data.length := by
      rw [hd a ha]
      simp only [String.data_append, List.length_append, List.length_singleton]
      have ha1 : 1 ≤ a.data.length := by
        rcases had : a.data with _ | _
        · exact absurd (String.ext had) ((ordinaryName_iff a).mp ha).1
        · simp
      omega
    unfold fsRemoveAll
    simp only
    rw [List.mem_filter]
    refine ⟨hmem, ?_⟩
    have hne : (d == pathJoin d a) = false := by
      rw [beq_eq_false_iff_ne]
      intro he
      have := congrArg (fun s : String => s.data.length) he
      simp only at this
      omega
    have hnu : underDir (pathJoin d a) d = false := by
      rcases hu : underDir (pathJoin d a) d with _ | _
      · rfl
      · have := underDir_length _ _ hu
        omega
    rw [hne, hnu]
    rfl

theorem childNameOf_removed (d k n : String) (h : childNameOf d k = some n)
    (hd : ∀ m, ordinaryName m = true → pathJoin d m = d ++ "/" ++ m) :
    k = pathJoin d n ∨ underDir (pathJoin d n) k = true := by
  obtain ⟨hord, hcase⟩ := childNameOf_some_cases d k n h
  rw [hd n hord]
  exact hcase

theorem linuxMoveToTrash_succeeds (ts p : String) (fs2 : FS) (c : String)
    (hb : ordinaryName (pathBase p) = true) (hf : fsFind fs2 p = some c) :
    ∃ out, linuxMoveToTrash ts p fs2 = .ok out := by
  unfold linuxMoveToTrash
  obtain ⟨nm, hnm⟩ := probeLoop_total
    (fsMkdirAll (fsMkdirAll fs2 linuxTrashDir) linuxInfoDir) linuxTrashDir
    (pathBase p) hb pathJoin_linuxTrashDir
  simp only [hnm]
  have hren : fsRename (fsMkdirAll (fsMkdirAll fs2 linuxTrashDir) linuxInfoDir)
      p (pathJoin linuxTrashDir nm) =
      some (fsWriteFile (fsRemoveFile
        (fsMkdirAll (fsMkdirAll fs2 linuxTrashDir) linuxInfoDir) p)
        (pathJoin linuxTrashDir nm) c) := by
    unfold fsRename
    rw [show fsFind (fsMkdirAll (fsMkdirAll fs2 linuxTrashDir) linuxInfoDir) p =
      some c from hf]
  simp only [hren]
  exact ⟨_, rfl⟩

theorem macMoveToTrash_succeeds (p : String) (fs2 : FS) (c : String)
    (hb : ordinaryName (pathBase p) = true) (hf : fsFind fs2 p = some c) :
    ∃ out, macMoveToTrash p fs2 = .ok out := by
  unfold macMoveToTrash
  obtain ⟨nm, hnm⟩ := probeLoop_total (fsMkdirAll fs2 macTrashDir) macTrashDir
    (pathBase p) hb pathJoin_macTrashDir
  simp only [hnm]
  have hren : fsRename (fsMkdirAll fs2 macTrashDir) p
      (pathJoin macTrashDir nm) =
      some (fsWriteFile (fsRemoveFile (fsMkdirAll fs2 macTrashDir) p)
        (pathJoin macTrashDir nm) c) := by
    unfold fsRename
    rw [show fsFind (fsMkdirAll fs2 macTrashDir) p = some c from hf]
  simp only [hren]
  exact ⟨_, rfl⟩

theorem linuxEmptyTrash_reset (fs : FS) :
    (linuxEmptyTrash fs).dirs.contains linuxTrashDir = true ∧
    (linuxEmptyTrash fs).dirs.contains linuxInfoDir = true ∧
    linuxListTrash (linuxEmptyTrash fs) = .ok [] := by
  have hc1 : (linuxEmptyTrash fs).dirs.contains linuxTrashDir = true := by
    unfold linuxEmptyTrash
    exact mkdirAll_contains_mono _ _ _ (mkdirAll_contains_self _ _)
  have hc2 : (linuxEmptyTrash fs).dirs.contains linuxInfoDir = true := by
    unfold linuxEmptyTrash
    exact mkdirAll_contains_self _ _
  have hnil : entriesUnder (linuxEmptyTrash fs) linuxTrashDir = [] := by
    apply entriesUnder_eq_nil
    intro k hk
    rcases hopt : childNameOf linuxTrashDir k with _ | n
    · rfl
    exfalso
    have hunder : underDir linuxTrashDir k = true :=
      childNameOf_requires_under _ _ (by rw [hopt]; rfl)
    rcases List.mem_append.mp hk with hk | hk
    · rw [List.mem_map] at hk
      obtain ⟨e, he, rfl⟩ := hk
      have he2 : e ∈ (fsRemoveAll (fsRemoveAll fs linuxTrashDir)
          linuxInfoDir).files := he
      obtain ⟨he3, _, _⟩ := removeAll_files_subset _ _ _ he2
      obtain ⟨_, _, hund⟩ := removeAll_files_subset _ _ _ he3
      rw [hunder] at hund
      exact Bool.noConfusion hund
    · rcases mkdirAll_dirs_mem _ _ _ hk with rfl | hk2
      · rw [(by decide : underDir linuxTrashDir linuxInfoDir = false)] at hunder
        exact Bool.noConfusion hunder
      · rcases mkdirAll_dirs_mem _ _ _ hk2 with rfl | hk3
        · rw [(by decide : underDir linuxTrashDir linuxTrashDir = false)] at hunder
          exact Bool.noConfusion hunder
        · obtain ⟨hk4, _, _⟩ := removeAll_dirs_subset _ _ _ hk3
          obtain ⟨_, _, hund⟩ := removeAll_dirs_subset _ _ _ hk4
          rw [hunder] at hund
          exact Bool.noConfusion hund
  exact ⟨hc1, hc2, by unfold linuxListTrash; rw [if_pos hc1, hnil]⟩

theorem macEmptyTrash_reset (fs fsm : FS) (hme : macEmptyTrash fs = .ok fsm) :
    macListTrash fsm = .ok [] ∧ fsm.dirs.contains macTrashDir = true := by
  unfold macEmptyTrash at hme
  by_cases hc : fs.dirs.contains macTrashDir = true
  swap
  · rw [if_neg hc] at hme
    exact Except.noConfusion hme
  rw [if_pos hc] at hme
  simp only [Except.ok.injEq] at hme
  have hOrd : ∀ n ∈ entriesUnder fs macTrashDir, ordinaryName n = true := by
    intro n hn
    unfold entriesUnder at hn
    rw [List.mem_dedup, List.mem_filterMap] at hn
    obtain ⟨k, _, hck⟩ := hn
    exact (childNameOf_some_cases _ _ _ hck).1
  have hroot : macTrashDir ∈ fsm.dirs := by
    rw [← hme]
    exact foldl_removeAll_keeps_root macTrashDir _ fs hOrd
      pathJoin_macTrashDir ((contains_iff_mem _ _).mp hc)
  have hcont : fsm.dirs.contains macTrashDir = true :=
    (contains_iff_mem _ _).mpr hroot
  refine ⟨?_, hcont⟩
  unfold macListTrash
  rw [if_pos hcont]
  have hnil : entriesUnder fsm macTrashDir = [] := by
    apply entriesUnder_eq_nil
    intro k hk
    rcases hopt : childNameOf macTrashDir k with _ | n
    · rfl
    exfalso
    have hrem := childNameOf_removed macTrashDir k n hopt pathJoin_macTrashDir
    rcases List.mem_append.mp hk with hk | hk
    · rw [List.mem_map] at hk
      obtain ⟨e, he, rfl⟩ := hk
      have hefs : e ∈ fs.files := by
        rw [← hme] at he
        exact foldl_removeAll_files_subset macTrashDir _ fs e he
      have hnmem : n ∈ entriesUnder fs macTrashDir :=
        mem_entriesUnder fs macTrashDir e.1 n
          (List.mem_append.mpr (Or.inl (List.mem_map.mpr ⟨e, hefs, rfl⟩))) hopt
      have hgone := (foldl_removeAll_removes macTrashDir
        (entriesUnder fs macTrashDir) fs e.1 n hnmem hrem).1
      rw [← hme] at he
      exact hgone (List.mem_map.mpr ⟨e, he, rfl⟩)
    · have hkfs : k ∈ fs.dirs := by
        rw [← hme] at hk
        exact foldl_removeAll_dirs_subset macTrashDir _ fs k hk
      have hnmem : n ∈ entriesUnder fs macTrashDir :=
        mem_entriesUnder fs macTrashDir k n
          (List.mem_append.mpr (Or.inr hkfs)) hopt
      have hgone := (foldl_removeAll_removes macTrashDir
        (entriesUnder fs macTrashDir) fs k n hnmem hrem).2
      rw [← hme] at hk
      exact hgone hk
  rw [hnil]

/-- **C8**: after a successful `EmptyTrash()`, `ListTrash()` returns the
empty sequence and the trash root (and on Linux the metadata root)
exists as an empty directory, so a subsequent `MoveToTrash` of any
existing file succeeds without reinitialization — on the Linux variant
unconditionally, and on the macOS variant whenever `EmptyTrash`
succeeded. -/
theorem emptyTrash_resets_trash (ts : String) (fs : FS) :
    (linuxListTrash (linuxEmptyTrash fs) = .ok [] ∧
      (linuxEmptyTrash fs).dirs.contains linuxTrashDir = true ∧
      (linuxEmptyTrash fs).dirs.contains linuxInfoDir = true ∧
      ∀ p c, fsFind (linuxEmptyTrash fs) p = some c →
        ordinaryName (pathBase p) = true →
        ∃ out, linuxMoveToTrash ts p (linuxEmptyTrash fs) = .ok out) ∧
    ∀ fsm, macEmptyTrash fs = .ok fsm →
      macListTrash fsm = .ok [] ∧
      fsm.dirs.contains macTrashDir = true ∧
      ∀ p c, fsFind fsm p = some c → ordinaryName (pathBase p) = true →
        ∃ out, macMoveToTrash p fsm = .ok out := by
  constructor
  · obtain ⟨h1, h2, h3⟩ := linuxEmptyTrash_reset fs
    exact ⟨h3, h1, h2, fun p c hf hb => linuxMoveToTrash_succeeds ts p _ c hb hf⟩
  · intro fsm hme
    obtain ⟨h1, h2⟩ := macEmptyTrash_reset fs fsm hme
    exact ⟨h1, h2, fun p c hf hb => macMoveToTrash_succeeds p fsm c hb hf⟩

/-- Witness for C8 on a filesystem with one entry in each trash root. -/
theorem emptyTrash_resets_trash_witness :
    linuxListTrash (linuxEmptyTrash ⟨[("/home/u/.Trash/old.txt", "x"),
      ("/home/u/.local/share/Trash/files/old2.txt", "y"), ("/doc.txt", "z")],
      ["/home/u/.Trash"]⟩) = .ok [] ∧
    macListTrash ⟨[("/home/u/.local/share/Trash/files/old2.txt", "y"),
      ("/doc.txt", "z")], ["/home/u/.Trash"]⟩ = .ok [] ∧
    (∃ out, linuxMoveToTrash "T" "/doc.txt"
      (linuxEmptyTrash ⟨[("/home/u/.Trash/old.txt", "x"),
        ("/home/u/.local/share/Trash/files/old2.txt", "y"), ("/doc.txt", "z")],
        ["/home/u/.Trash"]⟩) = .ok out) ∧
    ∃ out, macMoveToTrash "/doc.txt"
      ⟨[("/home/u/.local/share/Trash/files/old2.txt", "y"), ("/doc.txt", "z")],
        ["/home/u/.Trash"]⟩ = .ok out := by
  have h := emptyTrash_resets_trash "T" ⟨[("/home/u/.Trash/old.txt", "x"),
    ("/home/u/.local/share/Trash/files/old2.txt", "y"), ("/doc.txt", "z")],
    ["/home/u/.Trash"]⟩
  have hmac := h.2 ⟨[("/home/u/.local/share/Trash/files/old2.txt", "y"),
    ("/doc.txt", "z")], ["/home/u/.Trash"]⟩ (by rfl)
  refine ⟨h.1.1, hmac.1, ?_, ?_⟩
  · exact h.1.2.2.2 "/doc.txt" "z" (by rfl) (by decide)
  · exact hmac.2.2 "/doc.txt" "z" (by rfl) (by decide)

/-! ## Zip member naming (claim C9) -/

/-- A member name that is a `'/'`-joined sequence of ordinary entry
names — in particular relative, with no leading separator. -/
def slashJoinedRelative (m : String) : Prop :=
  ∃ ps, ps ≠ [] ∧ (∀ p ∈ ps, ordinaryName p = true) ∧ m = joinParts ps

theorem joinParts_head_data (p : String) (ps : List String) :
    ∃ t, (joinParts (p :: ps)).data = p.data ++ t := by
  rcases ps with _ | ⟨q, qs⟩
  · exact ⟨[], by simp [joinParts]⟩
  · exact ⟨'/' :: (joinParts (q :: qs)).data, joinParts_data_cons p (q :: qs) (by simp)⟩

theorem slashJoined_ne_empty (m : String) (h : slashJoinedRelative m) : m ≠ "" := by
  obtain ⟨ps, hne, hord, rfl⟩ := h
  rcases ps with _ | ⟨p, ps'⟩
  · exact absurd rfl hne
  obtain ⟨t, ht⟩ := joinParts_head_data p ps'
  intro he
  have hd := congrArg String.data he
  rw [ht] at hd
  have hp1 := ((ordinaryName_iff p).mp (hord p (by simp))).1
  rcases hpd : p.data with _ | _
  · exact hp1 (String.ext hpd)
  · rw [hpd] at hd
    simp at hd

theorem slashJoined_not_abs (m : String) (h : slashJoinedRelative m) :
    goHasPrefix m "/" = false := by
  obtain ⟨ps, hne, hord, rfl⟩ := h
  rcases ps with _ | ⟨p, ps'⟩
  · exact absurd rfl hne
  obtain ⟨t, ht⟩ := joinParts_head_data p ps'
  obtain ⟨hp1, _, _, hp4⟩ := (ordinaryName_iff p).mp (hord p (by simp))
  rcases hpd : p.data with _ | ⟨c, cs⟩
  · exact absurd (String.ext hpd) hp1
  have hc : c ≠ '/' := fun he => hp4 (he ▸ (hpd ▸ List.mem_cons_self c cs))
  unfold goHasPrefix
  rw [ht, hpd]
  show (['/'].isPrefixOf (c :: (cs ++ t))) = false
  rw [List.isPrefixOf]
  rw [beq_eq_false_iff_ne.mpr (Ne.symm hc)]
  rfl

theorem isAbs_false_of_head (s : String) (c : Char) (cs : List Char)
    (hd : s.data = c :: cs) (hc : c ≠ '/') : isAbs s = false := by
  unfold isAbs
  rw [hd]
  split
  · next heq =>
    injection heq with h1 _
    exact absurd h1 hc
  · rfl

/-- `filepath.Join` of a slash-joined relative name and an ordinary
entry name is plain concatenation: cleaning changes nothing. -/
theorem pathJoin_joinParts (ps : List String) (n : String)
    (hps : ps ≠ []) (hord : ∀ p ∈ ps, ordinaryName p = true)
    (hn : ordinaryName n = true) :
    pathJoin (joinParts ps) n = joinParts (ps ++ [n]) := by
  obtain ⟨hn1, hn2, hn3, hn4⟩ := (ordinaryName_iff n).mp hn
  have hane : joinParts ps ≠ "" :=
    slashJoined_ne_empty _ ⟨ps, hps, hord, rfl⟩
  unfold pathJoin
  rw [if_neg (by simp [hane]), if_neg hane, if_neg hn1]
  rcases ps with _ | ⟨p, ps'⟩
  · exact absurd rfl hps
  obtain ⟨t, ht⟩ := joinParts_head_data p ps'
  obtain ⟨hp1, _, _, hp4⟩ := (ordinaryName_iff p).mp (hord p (by simp))
  rcases hpd : p.data with _ | ⟨c, cs⟩
  · exact absurd (String.ext hpd) hp1
  have hc : c ≠ '/' := fun he => hp4 (he ▸ (hpd ▸ List.mem_cons_self c cs))
  have hdata : (joinParts (p :: ps') ++ "/" ++ n).data =
      (joinParts (p :: ps')).data ++ '/' :: n.data := by
    simp [String.data_append]
  have habs : isAbs (joinParts (p :: ps') ++ "/" ++ n) = false := by
    refine isAbs_false_of_head _ c (cs ++ t ++ '/' :: n.data) ?_ hc
    rw [hdata, ht, hpd]
    simp
  have hsplit : goSplitOnChar '/' (joinParts (p :: ps') ++ "/" ++ n) =
      (p :: ps') ++ [n] := by
    unfold goSplitOnChar
    rw [hdata, splitSepL_append,
      splitSepL_joinParts (p :: ps') (by simp)
        (fun q hq => ((ordinaryName_iff q).mp (hord q hq)).2.2.2),
      splitSepL_no_sep '/' n.data hn4]
    simp only [List.map_append, List.map_map, mk_comp_data_eq_id, List.map_id]
    rfl
  unfold pathClean cleanParts
  rw [habs, hsplit]
  rw [cleanStack_pushes false ((p :: ps') ++ [n]) [] ?hpp]
  case hpp =>
    intro q hq
    rcases List.mem_append.mp hq with hq | hq
    · have := (ordinaryName_iff q).mp (hord q hq)
      exact ⟨this.1, this.2.1, this.2.2.1⟩
    · rcases List.mem_singleton.mp hq with rfl
      exact ⟨hn1, hn2, hn3⟩
  rw [List.append_nil, List.reverse_reverse]
  unfold renderParts
  rw [if_neg (by simp), if_neg (by simp)]

mutual

theorem addToZip_good (t : FsTree) (src base : String) (hwf : wfTree t = true)
    (hbase : slashJoinedRelative base) :
    ∀ m ∈ addToZip t src base, slashJoinedRelative m :=
  match t with
  | .file c => by
    intro m hm
    simp only [addToZip, toSlash] at hm
    rw [if_neg (slashJoined_ne_empty base hbase)] at hm
    rcases List.mem_singleton.mp hm with rfl
    exact hbase
  | .dir entries => by
    intro m hm
    simp only [addToZip] at hm
    exact addEntriesToZip_good entries src base (by simpa [wfTree] using hwf)
      hbase m hm

theorem addEntriesToZip_good (es : FsEntries) (src base : String)
    (hwf : wfEntries es = true) (hbase : slashJoinedRelative base) :
    ∀ m ∈ addEntriesToZip es src base, slashJoinedRelative m :=
  match es with
  | .nil => by
    intro m hm
    simp [addEntriesToZip] at hm
  | .cons n child rest => by
    intro m hm
    have hwf' : ordinaryName n = true ∧ wfTree child = true ∧
        wfEntries rest = true := by
      simpa [wfEntries, Bool.and_eq_true, and_assoc] using hwf
    simp only [addEntriesToZip] at hm
    rcases List.mem_append.mp hm with hm | hm
    · rw [if_neg (slashJoined_ne_empty base hbase)] at hm
      obtain ⟨ps, hps, hord, hbeq⟩ := hbase
      have hbase' : slashJoinedRelative (pathJoin base n) := by
        rw [hbeq, pathJoin_joinParts ps n hps hord hwf'.1]
        refine ⟨ps ++ [n], by simp [hps], ?_, rfl⟩
        intro q hq
        rcases List.mem_append.mp hq with hq | hq
        · exact hord q hq
        · rcases List.mem_singleton.mp hq with rfl
          exact hwf'.1
      exact addToZip_good child (pathJoin src n) (pathJoin base n)
        hwf'.2.1 hbase' m hm
    · exact addEntriesToZip_good rest src base hwf'.2.2 hbase m hm

end

theorem addEntriesToZip_good_empty (es : FsEntries) (src : String)
    (hwf : wfEntries es = true) :
    ∀ m ∈ addEntriesToZip es src "", slashJoinedRelative m :=
  match es with
  | .nil => by
    intro m hm
    simp [addEntriesToZip] at hm
  | .cons n child rest => by
    intro m hm
    have hwf' : ordinaryName n = true ∧ wfTree child = true ∧
        wfEntries rest = true := by
      simpa [wfEntries, Bool.and_eq_true, and_assoc] using hwf
    simp only [addEntriesToZip] at hm
    rcases List.mem_append.mp hm with hm | hm
    · simp only [reduceIte] at hm
      exact addToZip_good child (pathJoin src n) n hwf'.2.1
        ⟨[n], by simp, by
          intro q hq
          rcases List.mem_singleton.mp hq with rfl
          exact hwf'.1, by simp [joinParts]⟩ m hm
    · exact addEntriesToZip_good_empty rest src hwf'.2.2 m hm

/-- **C9**: every member name `addFileToZip` writes for a well-formed
directory tree (as read through `os.ReadDir`, whose entry names are
always ordinary), starting from `ArchiveFiles`' top-level call with an
empty position, is a forward-slash-joined sequence of ordinary entry
names — hence relative, with no leading separator.  For a top-level
regular file the hypothesis is that its base name is an ordinary name,
which holds of every real file path. -/
theorem zipMember_names_relative (src : String) (t : FsTree)
    (hwf : wfTree t = true)
    (hfile : ∀ c, t = FsTree.file c → ordinaryName (pathBase src) = true) :
    ∀ m ∈ addToZip t src "", slashJoinedRelative m ∧
      goHasPrefix m "/" = false := by
  intro m hm
  have hgood : slashJoinedRelative m := by
    cases t with
    | file c =>
      simp [addToZip, toSlash] at hm
      subst hm
      refine ⟨[pathBase src], by simp, ?_, by simp [joinParts]⟩
      intro p hp
      rcases List.mem_singleton.mp hp with rfl
      exact hfile c rfl
    | dir entries =>
      simp only [addToZip] at hm
      exact addEntriesToZip_good_empty entries src
        (by simpa [wfTree] using hwf) m hm
  exact ⟨hgood, slashJoined_not_abs m hgood⟩

/-- Witness for C9 on a two-level tree whose members are
`["sub/f.txt", "a.txt"]`: the nested member name is slash-joined and
relative. -/
theorem zipMember_names_relative_witness :
    slashJoinedRelative "sub/f.txt" ∧ goHasPrefix "sub/f.txt" "/" = false :=
  zipMember_names_relative "/data"
    (FsTree.dir (FsEntries.cons "sub"
      (FsTree.dir (FsEntries.cons "f.txt" (FsTree.file "x") FsEntries.nil))
      (FsEntries.cons "a.txt" (FsTree.file "y") FsEntries.nil)))
    (by decide) (fun c hc => FsTree.noConfusion hc) "sub/f.txt" (by decide)

end FMSpec
